import Mathlib

/-!
Shallow embedding of `.github/scripts/sync_labels.py`.

Python JSON values are modelled by the inductive type `J` (JSON numbers are
modelled as integers; the script never manipulates fractional numbers).
Python exceptions are modelled by `Err`; a computation that may raise and may
loop forever (the `while True` pagination loop) returns a `PyResult` driven by
an explicit fuel parameter.  Network I/O is modelled by an oracle `Env` giving
the decoded response of every GET/GraphQL call the script issues (`none`
models the cases in which the `api` helper returns Python `None`: an
`HTTPError`, any other exception, or an empty body).  Mutating calls
(create/update/delete) and the print statements of the script are recorded in
order as an `Event` trace.
-/

namespace SyncLabels

/-- Python/JSON values as the script sees them after `json.loads`. -/
inductive J where
  | null
  | bool (b : Bool)
  | num (n : Int)
  | str (s : String)
  | arr (xs : List J)
  | obj (kvs : List (String × J))
  deriving Repr

mutual

/-- Structural boolean equality on `J`.  It coincides with Python `==` on
strings — the only comparisons a string value can win are against equal
strings, with no coercion — but not on all of `J`: Python dict equality is
key-order-insensitive and Python coerces `True == 1`.  Theorems whose
conclusions depend on a comparison of possibly non-string values therefore
carry string hypotheses on the compared fields, restricting them to the
domain where this model and Python agree. -/
def J.beq : J → J → Bool
  | .null, .null => true
  | .bool a, .bool b => a == b
  | .num a, .num b => a == b
  | .str a, .str b => a == b
  | .arr a, .arr b => J.beqList a b
  | .obj a, .obj b => J.beqObj a b
  | _, _ => false

/-- Elementwise `J.beq` on lists. -/
def J.beqList : List J → List J → Bool
  | [], [] => true
  | x :: xs, y :: ys => J.beq x y && J.beqList xs ys
  | _, _ => false

/-- Elementwise `J.beq` on key-value lists. -/
def J.beqObj : List (String × J) → List (String × J) → Bool
  | [], [] => true
  | (k, v) :: xs, (l, w) :: ys => k == l && J.beq v w && J.beqObj xs ys
  | _, _ => false

end

mutual

/-- A positive `J.beq` answer implies equality. -/
theorem J.beq_sound : ∀ a b : J, J.beq a b = true → a = b
  | .null, .null, _ => rfl
  | .null, .bool _, h => Bool.noConfusion h
  | .null, .num _, h => Bool.noConfusion h
  | .null, .str _, h => Bool.noConfusion h
  | .null, .arr _, h => Bool.noConfusion h
  | .null, .obj _, h => Bool.noConfusion h
  | .bool _, .null, h => Bool.noConfusion h
  | .bool a, .bool b, h => by simp [J.beq] at h; rw [h]
  | .bool _, .num _, h => Bool.noConfusion h
  | .bool _, .str _, h => Bool.noConfusion h
  | .bool _, .arr _, h => Bool.noConfusion h
  | .bool _, .obj _, h => Bool.noConfusion h
  | .num _, .null, h => Bool.noConfusion h
  | .num _, .bool _, h => Bool.noConfusion h
  | .num a, .num b, h => by simp [J.beq] at h; rw [h]
  | .num _, .str _, h => Bool.noConfusion h
  | .num _, .arr _, h => Bool.noConfusion h
  | .num _, .obj _, h => Bool.noConfusion h
  | .str _, .null, h => Bool.noConfusion h
  | .str _, .bool _, h => Bool.noConfusion h
  | .str _, .num _, h => Bool.noConfusion h
  | .str a, .str b, h => by simp [J.beq] at h; rw [h]
  | .str _, .arr _, h => Bool.noConfusion h
  | .str _, .obj _, h => Bool.noConfusion h
  | .arr _, .null, h => Bool.noConfusion h
  | .arr _, .bool _, h => Bool.noConfusion h
  | .arr _, .num _, h => Bool.noConfusion h
  | .arr _, .str _, h => Bool.noConfusion h
  | .arr xs, .arr ys, h => congrArg J.arr (J.beqList_sound xs ys (by simpa [J.beq] using h))
  | .arr _, .obj _, h => Bool.noConfusion h
  | .obj _, .null, h => Bool.noConfusion h
  | .obj _, .bool _, h => Bool.noConfusion h
  | .obj _, .num _, h => Bool.noConfusion h
  | .obj _, .str _, h => Bool.noConfusion h
  | .obj _, .arr _, h => Bool.noConfusion h
  | .obj xs, .obj ys, h => congrArg J.obj (J.beqObj_sound xs ys (by simpa [J.beq] using h))

/-- Soundness of `J.beqList`. -/
theorem J.beqList_sound : ∀ xs ys : List J, J.beqList xs ys = true → xs = ys
  | [], [], _ => rfl
  | [], _ :: _, h => Bool.noConfusion h
  | _ :: _, [], h => Bool.noConfusion h
  | x :: xs, y :: ys, h => by
      simp only [J.beqList, Bool.and_eq_true] at h
      rw [J.beq_sound x y h.1, J.beqList_sound xs ys h.2]

/-- Soundness of `J.beqObj`. -/
theorem J.beqObj_sound : ∀ xs ys : List (String × J), J.beqObj xs ys = true → xs = ys
  | [], [], _ => rfl
  | [], _ :: _, h => Bool.noConfusion h
  | _ :: _, [], h => Bool.noConfusion h
  | (k, v) :: xs, (l, w) :: ys, h => by
      simp only [J.beqObj, Bool.and_eq_true, beq_iff_eq] at h
      rw [h.1.1, J.beq_sound v w h.1.2, J.beqObj_sound xs ys h.2]

end

mutual

/-- Reflexivity of `J.beq`. -/
theorem J.beq_refl : ∀ a : J, J.beq a a = true
  | .null => rfl
  | .bool b => by simp [J.beq]
  | .num n => by simp [J.beq]
  | .str s => by simp [J.beq]
  | .arr xs => by simpa [J.beq] using J.beqList_refl xs
  | .obj kvs => by simpa [J.beq] using J.beqObj_refl kvs

/-- Reflexivity of `J.beqList`. -/
theorem J.beqList_refl : ∀ xs : List J, J.beqList xs xs = true
  | [] => rfl
  | x :: xs => by simp [J.beqList, J.beq_refl x, J.beqList_refl xs]

/-- Reflexivity of `J.beqObj`. -/
theorem J.beqObj_refl : ∀ xs : List (String × J), J.beqObj xs xs = true
  | [] => rfl
  | (k, v) :: xs => by simp [J.beqObj, J.beq_refl v, J.beqObj_refl xs]

end

instance : DecidableEq J := fun a b =>
  if h : J.beq a b = true then .isTrue (J.beq_sound a b h)
  else .isFalse (fun e => h (e ▸ J.beq_refl a))

/-- Python truthiness (`if not x`): `None`, `False`, `0`, `""`, `[]`, `{}` are falsy. -/
def truthy : J → Bool
  | .null => false
  | .bool b => b
  | .num n => n != 0
  | .str s => s != ""
  | .arr xs => !xs.isEmpty
  | .obj kvs => !kvs.isEmpty

/-- Whether a value is a Python `str`. -/
def J.isStr : J → Bool
  | .str _ => true
  | _ => false

/-- Whether a value is a Python `list` (`isinstance(x, list)`). -/
def J.isList : J → Bool
  | .arr _ => true
  | _ => false

/-- Whether a decoded JSON value is hashable in Python, that is, usable as a
dict key: lists and dicts are not, and building a dict with such a key raises
`TypeError`. -/
def J.isHashable : J → Bool
  | .arr _ => false
  | .obj _ => false
  | _ => true

/-- Python exceptions that the script can raise and leave uncaught. -/
inductive Err where
  | keyError (k : String)
  | typeError
  | attributeError
  deriving DecidableEq, Repr

/-- Dictionary lookup.  `json.loads` keeps the last of any duplicated keys, so
lookup returns the last binding for the key. -/
def objLookup (kvs : List (String × J)) (k : String) : Option J :=
  (kvs.reverse.find? (fun p => p.1 = k)).map Prod.snd

/-- Python `d.get(k)`: `None` when the key is absent; raises `AttributeError`
on a non-dict receiver. -/
def pyGet (j : J) (k : String) : Except Err J :=
  match j with
  | .obj kvs => .ok ((objLookup kvs k).getD .null)
  | _ => .error .attributeError

/-- Python `d[k]` with a string key: `KeyError` when the key is absent in a
dict, `TypeError` on any non-dict receiver. -/
def pyGetItem (j : J) (k : String) : Except Err J :=
  match j with
  | .obj kvs =>
    match objLookup kvs k with
    | some v => .ok v
    | none => .error (.keyError k)
  | _ => .error .typeError

/-- Python `for x in j`: lists yield their elements, dicts their keys, strings
their one-character substrings; other values raise `TypeError`. -/
def pyIter (j : J) : Except Err (List J) :=
  match j with
  | .arr xs => .ok xs
  | .obj kvs => .ok (kvs.map (fun p => .str p.1))
  | .str s => .ok (s.toList.map (fun c => .str (String.singleton c)))
  | _ => .error .typeError

/-- Python `x.lower()`: defined on strings only (ASCII lowering approximates
CPython Unicode lowering, which the script never depends on); any other
receiver raises `AttributeError`. -/
def pyLower (j : J) : Except Err String :=
  match j with
  | .str s => .ok s.toLower
  | _ => .error .attributeError

/-- Python `urllib.parse.quote(x, safe="")`: requires a string receiver,
raising `TypeError` otherwise.  The percent-encoded output only feeds the
request URL, which the oracle abstracts, so the encoding itself is not
modelled. -/
def pyQuote (j : J) : Except Err String :=
  match j with
  | .str s => .ok s
  | _ => .error .typeError

/-- Python `int(x)` as used (and guarded by `try`/`except`) in
`has_discussions`: integers pass through, booleans become 0/1, integer-looking
strings parse (approximated by `String.toInt?`), everything else fails
(modelling the caught exception as `none`). -/
def pyIntOpt (j : J) : Option Int :=
  match j with
  | .num n => some n
  | .bool b => some (if b then 1 else 0)
  | .str s => s.trim.toInt?
  | _ => none

/-- A label record as built by `list_labels` (the dict
`{"name": ..., "color": ..., "description": ...}` it appends). -/
structure PyLabel where
  name : J
  color : J
  description : J
  deriving DecidableEq, Repr

/-- Observable actions of the script, in program order: the mutating API calls
(`createCall`, `updateCall`, `deleteCall`) and the print statements.  The
constructors `noExtraLabelsInUse` and `reportEntry` model the summary lines
that the specification describes for the driver ("no extra labels in use",
and one grouped report line per referencing item with number, url and title);
they are part of the observation vocabulary so that the specified output is
statable, and the code under verification never emits them. -/
inductive Event where
  | processing (repo : J)
  | logCreating (repo name : J)
  | createCall (repo name color description : J)
  | logUpdating (repo name : J)
  | updateCall (repo name color description : J)
  | logDeleting (repo name : J)
  | deleteCall (repo name : J)
  | logSkipping (repo name : J)
  | logKeeping (repo name : J)
  | done
  | noExtraLabelsInUse
  | reportEntry (repo label kind number url title : J)
  deriving DecidableEq, Repr

/-- Result of running a fragment of the script: normal return, an uncaught
Python exception, or divergence (the fuel bound on the unbounded `while True`
pagination loop was exhausted; a model artifact standing for nontermination). -/
inductive PyResult (α : Type) where
  | ok (a : α)
  | exn (e : Err)
  | div
  deriving DecidableEq, Repr

/-- A computation that emits events in order and then returns, raises, or
diverges.  Events already emitted are retained when an exception follows. -/
def M (α : Type) : Type := List Event × PyResult α

/-- Sequencing of two event-emitting computations: the second runs only when
the first returned normally. -/
def seqM (x y : M Unit) : M Unit :=
  match x with
  | (evs, .ok _) => (evs ++ y.1, y.2)
  | (evs, .exn e) => (evs, .exn e)
  | (evs, .div) => (evs, .div)

/-- Oracle for the read-only remote calls the script makes.  Each field gives
the value that the `api` helper returns for one call shape; `none` stands for
every case in which `api` returns Python `None` (an `HTTPError`, any other
caught exception, or an empty response body).  Responses to the mutating
create/update/delete calls are discarded by the script, so they need no
oracle. -/
structure Env where
  /-- `GET /orgs/{org}/repos?type=all&per_page=100&page=n`. -/
  reposPage : Nat → Option J
  /-- `GET /repos/{repo}/labels?per_page=100&page=n`. -/
  labelsPage : J → Nat → Option J
  /-- `GET /repos/{repo}/issues?state=all&labels={label}&per_page=1`. -/
  issuesProbe : J → J → Option J
  /-- `POST /graphql` with the discussion-search query for `{repo}`/`{label}`. -/
  gql : J → J → Option J

/-- Outcome of the `paged` helper: divergence, `None` (a failed page or a
truthy non-list page), or the accumulated rows. -/
inductive PagedOut where
  | div
  | fail
  | ok (rows : List J)
  deriving DecidableEq, Repr

/-- The `paged` loop of the script.  Starting at page `s` with accumulator
`acc`: a failed request returns `None`; a falsy batch (`if not batch`) returns
the accumulator; a truthy non-list batch returns `None` (after a stderr
message, which is not an observed event); a truthy list extends the
accumulator and moves to the next page.  `fuel` bounds the number of
iterations of the `while True` loop. -/
def pagedRun (fetch : Nat → Option J) : Nat → Nat → List J → PagedOut
  | 0, _, _ => .div
  | fuel + 1, s, acc =>
    match fetch s with
    | none => .fail
    | some batch =>
      if truthy batch = false then .ok acc
      else
        match batch with
        | .arr xs => pagedRun fetch fuel (s + 1) (acc ++ xs)
        | _ => .fail

/-- The `has_issues_or_prs` check: one single-item issues probe; `None` on a
failed request or a non-list response, otherwise whether the list is
nonempty.  It never raises. -/
def has_issues_or_prs (env : Env) (repo label : J) : Option Bool :=
  match env.issuesProbe repo label with
  | none => none
  | some data =>
    match data with
    | .arr xs => some (decide (0 < xs.length))
    | _ => none

/-- The `int(data["data"]["search"]["discussionCount"])` extraction of
`has_discussions`, with every exception of the chain caught (`none`). -/
def extractCount (kvs : List (String × J)) : Option Int :=
  match objLookup kvs "data" with
  | some (.obj kvs2) =>
    match objLookup kvs2 "search" with
    | some (.obj kvs3) =>
      match objLookup kvs3 "discussionCount" with
      | some c => pyIntOpt c
      | none => none
    | _ => none
  | _ => none

/-- The `has_discussions` check.  A failed request gives `none` (indeterminate);
a dict response with a truthy `errors` field gives `none`; otherwise the
guarded count extraction gives a definite answer or `none`.  A successful
non-dict response reaches `data.get("errors")`, which raises
`AttributeError` outside any `try` block. -/
def has_discussions (env : Env) (repo label : J) : Except Err (Option Bool) :=
  match env.gql repo label with
  | none => .ok none
  | some data =>
    match data with
    | .obj kvs =>
      if truthy ((objLookup kvs "errors").getD .null) then .ok none
      else
        match extractCount kvs with
        | some n => .ok (some (decide (0 < n)))
        | none => .ok none
    | _ => .error .attributeError

/-- The list comprehension of `list_repos`:
`[r["full_name"] for r in repos if not r.get("archived")]`. -/
def reposFilter : List J → Except Err (List J)
  | [] => .ok []
  | r :: rest =>
    match pyGet r "archived" with
    | .error e => .error e
    | .ok a =>
      if truthy a then reposFilter rest
      else
        match pyGetItem r "full_name" with
        | .error e => .error e
        | .ok fn =>
          match reposFilter rest with
          | .error e => .error e
          | .ok tail => .ok (fn :: tail)

/-- The `list_repos` function: a failed pagination yields `[]`, otherwise the
non-archived rows are projected to their `full_name`. -/
def list_repos (env : Env) (fuel : Nat) : PyResult (List J) :=
  match pagedRun env.reposPage fuel 1 [] with
  | .div => .div
  | .fail => .ok []
  | .ok rows =>
    match reposFilter rows with
    | .error e => .exn e
    | .ok rs => .ok rs

/-- The row loop of `list_labels`: rows whose `name` or `color` is falsy or
missing are dropped; a falsy or missing `description` is replaced by `""`. -/
def labelsBuild : List J → Except Err (List PyLabel)
  | [] => .ok []
  | l :: rest =>
    match pyGet l "name" with
    | .error e => .error e
    | .ok name =>
      match pyGet l "color" with
      | .error e => .error e
      | .ok color =>
        if truthy name = false ∨ truthy color = false then labelsBuild rest
        else
          match pyGet l "description" with
          | .error e => .error e
          | .ok d =>
            match labelsBuild rest with
            | .error e => .error e
            | .ok tail =>
              .ok (⟨name, color, if truthy d then d else .str ""⟩ :: tail)

/-- The `list_labels` function: a failed pagination yields `[]`, otherwise the
sanitized label records. -/
def list_labels (env : Env) (repo : J) (fuel : Nat) : PyResult (List PyLabel) :=
  match pagedRun (env.labelsPage repo) fuel 1 [] with
  | .div => .div
  | .fail => .ok []
  | .ok rows =>
    match labelsBuild rows with
    | .error e => .exn e
    | .ok ls => .ok ls

/-- Lookup in the dict `{l["name"]: l for l in list_labels(repo, t)}`: a
comprehension over a list with duplicated names keeps the last record, so
lookup finds the last record carrying the name. -/
def dictFind (ex : List PyLabel) (n : J) : Option PyLabel :=
  ex.reverse.find? (fun l => l.name = n)

/-- The body of the `for target in target_labels` loop of `sync_labels` for a
single target: read `name`, `color`, `description` (each read can raise); on a
hit compare the color case-insensitively (each `.lower()` can raise) and the
description exactly, updating on a difference; on a miss create.  The update
path percent-encodes the name (which raises on a non-string) after the log
line is printed. -/
def syncOne (repo : J) (ex : List PyLabel) (t : J) : M Unit :=
  match pyGetItem t "name" with
  | .error e => ([], .exn e)
  | .ok name =>
    match pyGetItem t "color" with
    | .error e => ([], .exn e)
    | .ok color =>
      match pyGetItem t "description" with
      | .error e => ([], .exn e)
      | .ok description =>
        match dictFind ex name with
        | some l =>
          match pyLower l.color with
          | .error e => ([], .exn e)
          | .ok exc =>
            match pyLower color with
            | .error e => ([], .exn e)
            | .ok c =>
              if exc ≠ c ∨ l.description ≠ description then
                match pyQuote name with
                | .error e => ([.logUpdating repo name], .exn e)
                | .ok _ =>
                  ([.logUpdating repo name, .updateCall repo name color description], .ok ())
              else ([], .ok ())
        | none =>
          ([.logCreating repo name, .createCall repo name color description], .ok ())

/-- The target loop of `sync_labels`. -/
def syncLoop (repo : J) (ex : List PyLabel) : List J → M Unit
  | [] => ([], .ok ())
  | t :: rest => seqM (syncOne repo ex t) (syncLoop repo ex rest)

/-- The key insertions of the dict comprehension
`{l["name"]: l for l in list_labels(repo, t)}`: inserting the first
unhashable (list- or dict-valued) name raises `TypeError`.  The value of the
built dict itself is modelled by `dictFind` (last-wins lookup), which agrees
with the dict for the string-keyed lookups the theorems are about. -/
def checkHashable : List PyLabel → Except Err Unit
  | [] => .ok ()
  | l :: rest => if l.name.isHashable then checkHashable rest else .error .typeError

/-- The `sync_labels` function: fetch the labels, build the name index (which
raises on an unhashable name), then iterate the targets.  Its own `token()`
call rereads the same environment that `main` already checked, so it is not
re-modelled. -/
def sync_labels (env : Env) (repo : J) (target_labels : J) (fuel : Nat) : M Unit :=
  match list_labels env repo fuel with
  | .div => ([], .div)
  | .exn e => ([], .exn e)
  | .ok ex =>
    match checkHashable ex with
    | .error e => ([], .exn e)
    | .ok _ =>
      match pyIter target_labels with
      | .error e => ([], .exn e)
      | .ok ts => syncLoop repo ex ts

/-- The extra-label computation of `cleanup_labels`:
`[l["name"] for l in existing_labels if l["name"] not in target_label_names]`. -/
def extraOf (ex : List PyLabel) (tns : List J) : List J :=
  (ex.map PyLabel.name).filter (fun n => n ∉ tns)

/-- The body of the pruning loop of `cleanup_labels` for one extra label: both
usage checks run (the discussions check can raise); if either is
indeterminate the label is skipped, if both report no usage the label is
deleted (the name is percent-encoded after the log line, raising on a
non-string), otherwise it is kept. -/
def cleanupOne (env : Env) (repo label : J) : M Unit :=
  let i := has_issues_or_prs env repo label
  match has_discussions env repo label with
  | .error e => ([], .exn e)
  | .ok d =>
    if i.isNone ∨ d.isNone then ([.logSkipping repo label], .ok ())
    else if i = some false ∧ d = some false then
      match pyQuote label with
      | .error e => ([.logDeleting repo label], .exn e)
      | .ok _ => ([.logDeleting repo label, .deleteCall repo label], .ok ())
    else ([.logKeeping repo label], .ok ())

/-- The pruning loop of `cleanup_labels`. -/
def cleanupLoop (env : Env) (repo : J) : List J → M Unit
  | [] => ([], .ok ())
  | n :: rest => seqM (cleanupOne env repo n) (cleanupLoop env repo rest)

/-- The `cleanup_labels` function. -/
def cleanup_labels (env : Env) (repo : J) (tns : List J) (fuel : Nat) : M Unit :=
  match list_labels env repo fuel with
  | .div => ([], .div)
  | .exn e => ([], .exn e)
  | .ok ex => cleanupLoop env repo (extraOf ex tns)

/-- The name projection of `main`:
`target_label_names = [l["name"] for l in target_labels]`. -/
def getNames : List J → Except Err (List J)
  | [] => .ok []
  | t :: rest =>
    match pyGetItem t "name" with
    | .error e => .error e
    | .ok n =>
      match getNames rest with
      | .error e => .error e
      | .ok tail => .ok (n :: tail)

/-- The names of the desired labels as `main` computes them, including the
iteration over the decoded configuration document. -/
def namesOf (target_labels : J) : Except Err (List J) :=
  match pyIter target_labels with
  | .error e => .error e
  | .ok ts => getNames ts

/-- The per-repository loop of `main`: print the progress line, reconcile,
prune, move on. -/
def repoLoop (env : Env) (target_labels : J) (tns : List J) (fuel : Nat) :
    List J → M Unit
  | [] => ([], .ok ())
  | r :: rest =>
    seqM ([.processing r], .ok ())
      (seqM (sync_labels env r target_labels fuel)
        (seqM (cleanup_labels env r tns fuel)
          (repoLoop env target_labels tns fuel rest)))

/-- The body of `main` after the credential check and the configuration load:
compute the desired names, enumerate the repositories, run the loop, print
the final line. -/
def mainBody (env : Env) (target_labels : J) (fuel : Nat) : M Unit :=
  match namesOf target_labels with
  | .error e => ([], .exn e)
  | .ok tns =>
    match list_repos env fuel with
    | .div => ([], .div)
    | .exn e => ([], .exn e)
    | .ok rs =>
      seqM (repoLoop env target_labels tns fuel rs) ([.done], .ok ())

/-- Outcome of a whole run: an exit code together with the emitted events, or
fuel exhaustion (the model artifact for nontermination). -/
inductive RunResult where
  | exited (code : Nat) (events : List Event)
  | ranOut
  deriving DecidableEq, Repr

/-- The `main` function.  `tok` is the credential from `GH_TOKEN`/`GITHUB_TOKEN`
(`none` for absent or empty, on which `token()` calls `sys.exit(2)` before any
remote call).  `cfg` is the decoded configuration document: `none` models a
missing file or a `json.load` failure, both of which abort the interpreter
with exit status 1; `some doc` models a file that parsed to `doc`.  An
uncaught exception in the body also aborts with exit status 1; a normal
return reaches `print("Done.")` and exits 0. -/
def main (tok : Option String) (cfg : Option J) (env : Env) (fuel : Nat) :
    RunResult :=
  match tok with
  | none => .exited 2 []
  | some _ =>
    match cfg with
    | none => .exited 1 []
    | some target_labels =>
      match mainBody env target_labels fuel with
      | (evs, .ok _) => .exited 0 evs
      | (evs, .exn _) => .exited 1 evs
      | (_, .div) => .ranOut

/-! Helper definitions for the statements: event counting and page
concatenation. -/

/-- Whether an event is the create call for label name `n`. -/
def isCreateFor (n : J) : Event → Bool
  | .createCall _ m _ _ => m = n
  | _ => false

/-- Whether an event is the update call for label name `n`. -/
def isUpdateFor (n : J) : Event → Bool
  | .updateCall _ m _ _ => m = n
  | _ => false

/-- Whether an event is the delete call for label name `n`. -/
def isDeleteFor (n : J) : Event → Bool
  | .deleteCall _ m => m = n
  | _ => false

/-- Whether an event is any delete call. -/
def isDeleteCall : Event → Bool
  | .deleteCall _ _ => true
  | _ => false

/-- Whether an event is a grouped-report line (as described by the
specification for the driver summary). -/
def isReportEvent : Event → Bool
  | .reportEntry _ _ _ _ _ _ => true
  | _ => false

/-- Number of create calls for label name `n` in a trace. -/
def countCreate (evs : List Event) (n : J) : Nat := evs.countP (isCreateFor n)

/-- Number of update calls for label name `n` in a trace. -/
def countUpdate (evs : List Event) (n : J) : Nat := evs.countP (isUpdateFor n)

/-- Number of delete calls for label name `n` in a trace. -/
def countDelete (evs : List Event) (n : J) : Nat := evs.countP (isDeleteFor n)

/-- Rows of the pages `s, s + 1, ..., s + k - 1`, concatenated (non-list pages
contributing nothing; they never arise where this is used). -/
def pagesConcat (fetch : Nat → Option J) : Nat → Nat → List J
  | _, 0 => []
  | s, k + 1 =>
    (match fetch s with
     | some (.arr xs) => xs
     | _ => []) ++ pagesConcat fetch (s + 1) k

/-- Truthiness of a list value. -/
theorem truthy_arr (xs : List J) : truthy (.arr xs) = !xs.isEmpty := rfl

/-- Running the pagination loop across `k` nonempty list pages consumes `k`
units of fuel and accumulates their rows. -/
theorem pagedRun_skip (fetch : Nat → Option J) :
    ∀ (k fuel s : Nat) (acc : List J),
    (∀ q, s ≤ q → q < s + k → ∃ xs, fetch q = some (J.arr xs) ∧ xs ≠ []) →
    pagedRun fetch (k + fuel) s acc
      = pagedRun fetch fuel (s + k) (acc ++ pagesConcat fetch s k)
  | 0, fuel, s, acc, _ => by simp [pagesConcat]
  | k + 1, fuel, s, acc, h => by
    obtain ⟨xs, hfs, hne⟩ := h s (Nat.le_refl s) (by omega)
    have hstep : k + 1 + fuel = (k + fuel) + 1 := by omega
    have htr : truthy (.arr xs) = true := by
      simp [truthy_arr, List.isEmpty_iff, hne]
    rw [hstep]
    have hrec := pagedRun_skip fetch k fuel (s + 1) (acc ++ xs)
      (fun q h1 h2 => h q (by omega) (by omega))
    simp only [pagedRun, hfs, htr]
    rw [hrec]
    have : s + 1 + k = s + (k + 1) := by omega
    rw [this, pagesConcat, hfs, List.append_assoc]
    simp

/-- When pages `1, ..., p - 1` are nonempty lists, the pagination loop reaches
page `p` carrying their rows. -/
theorem pagedRun_firstBad (fetch : Nat → Option J) (p fuel : Nat)
    (hp : 1 ≤ p) (hfuel : p ≤ fuel)
    (hprev : ∀ q, 1 ≤ q → q < p → ∃ xs, fetch q = some (J.arr xs) ∧ xs ≠ []) :
    pagedRun fetch fuel 1 []
      = pagedRun fetch (fuel - (p - 1)) p (pagesConcat fetch 1 (p - 1)) := by
  have hk : p - 1 + (fuel - (p - 1)) = fuel := by omega
  calc pagedRun fetch fuel 1 []
      = pagedRun fetch (p - 1 + (fuel - (p - 1))) 1 [] := by rw [hk]
    _ = pagedRun fetch (fuel - (p - 1)) (1 + (p - 1)) ([] ++ pagesConcat fetch 1 (p - 1)) :=
        pagedRun_skip fetch (p - 1) (fuel - (p - 1)) 1 []
          (fun q h1 h2 => hprev q h1 (by omega))
    _ = pagedRun fetch (fuel - (p - 1)) p (pagesConcat fetch 1 (p - 1)) := by
        have : 1 + (p - 1) = p := by omega
        rw [this, List.nil_append]

/-- C9 (counterexample): with page 1 a nonempty list and page 2 the falsy
non-list `{}`, the paged fetch returns the rows of page 1 instead of the
absent value the claim requires for a page that returns a non-list. -/
def cexFetch : Nat → Option J := fun p =>
  if p = 1 then some (.arr [.num 7]) else some (.obj [])

/-- C9 (counterexample): page 2 of `cexFetch` succeeds with the non-list `{}`
(it is neither a failed request nor a list), yet the paged fetch neither fails
nor diverges: it returns the rows fetched so far, because the falsy check
`if not batch` precedes the `isinstance(batch, list)` check.  This refutes the
claim that the fetch returns an absent value whenever some page returns a
non-list. -/
theorem paged_all_or_nothing_counterexample :
    cexFetch 2 = some (.obj []) ∧ (J.obj []).isList = false ∧ cexFetch 2 ≠ none ∧
      pagedRun cexFetch 5 1 [] = .ok [.num 7] ∧ pagedRun cexFetch 5 1 [] ≠ .fail := by
  refine ⟨rfl, rfl, by decide, by decide, by decide⟩

/-- C9 (amended theorem): let `p` be the first page whose response is not a
truthy (nonempty) list, with enough fuel to reach it.  If the request for
page `p` failed, the paged fetch returns the absent value and in particular
never a partial prefix of the rows already fetched; if page `p` returned a
falsy value (an empty list, or any other falsy value such as `{}`), the fetch
returns the concatenation of the rows of pages `1, ..., p - 1`; if page `p`
returned a truthy non-list, the fetch returns the absent value. -/
theorem paged_all_or_nothing_amended (fetch : Nat → Option J) (p fuel : Nat)
    (hp : 1 ≤ p) (hfuel : p ≤ fuel)
    (hprev : ∀ q, 1 ≤ q → q < p → ∃ xs, fetch q = some (J.arr xs) ∧ xs ≠ []) :
    (fetch p = none → pagedRun fetch fuel 1 [] = .fail) ∧
    (∀ b, fetch p = some b → truthy b = false →
      pagedRun fetch fuel 1 [] = .ok (pagesConcat fetch 1 (p - 1))) ∧
    (∀ b, fetch p = some b → truthy b = true → b.isList = false →
      pagedRun fetch fuel 1 [] = .fail) := by
  rw [pagedRun_firstBad fetch p fuel hp hfuel hprev]
  obtain ⟨m, hm⟩ : ∃ m, fuel - (p - 1) = m + 1 := ⟨fuel - (p - 1) - 1, by omega⟩
  rw [hm]
  refine ⟨fun hnone => by simp [pagedRun, hnone],
          fun b hb htr => by simp [pagedRun, hb, htr],
          fun b hb htr hnl => ?_⟩
  cases b <;> simp_all [pagedRun, J.isList]

/-- C9 (witness): with page 1 the list `[7]` and page 2 the empty list, the
paged fetch returns `[7]`. -/
theorem paged_all_or_nothing_witness :
    (fun p => if p = 1 then some (J.arr [J.num 7]) else some (J.arr [])) 2
        = some (J.arr []) ∧
      pagedRun (fun p => if p = 1 then some (J.arr [J.num 7]) else some (J.arr [])) 5 1 []
        = .ok [.num 7] := by
  refine ⟨rfl, ?_⟩
  have h := (paged_all_or_nothing_amended
    (fun p => if p = 1 then some (J.arr [J.num 7]) else some (J.arr [])) 2 5
    (by decide) (by decide)
    (fun q h1 h2 => by
      have hq : q = 1 := by omega
      subst hq
      exact ⟨[J.num 7], rfl, by decide⟩)).2.1 (J.arr []) rfl (by decide)
  simpa [pagesConcat] using h

/-- C8 (theorem): when the request for some repository page fails at the
transport level (the earlier pages having been nonempty lists), `list_repos`
returns the empty sequence without raising, so the run processes no
repositories. -/
theorem list_repos_transport_failure_noop (env : Env) (p fuel : Nat)
    (hp : 1 ≤ p) (hfuel : p ≤ fuel)
    (hprev : ∀ q, 1 ≤ q → q < p → ∃ xs, env.reposPage q = some (J.arr xs) ∧ xs ≠ [])
    (hfail : env.reposPage p = none) :
    list_repos env fuel = .ok [] := by
  unfold list_repos
  rw [pagedRun_firstBad env.reposPage p fuel hp hfuel hprev]
  obtain ⟨m, hm⟩ : ∃ m, fuel - (p - 1) = m + 1 := ⟨fuel - (p - 1) - 1, by omega⟩
  rw [hm]
  simp [pagedRun, hfail]

/-- C8 (witness): a repository enumeration whose very first page fails yields
the empty repository list. -/
theorem list_repos_transport_failure_noop_witness :
    (Env.mk (fun _ => none) (fun _ _ => none) (fun _ _ => none) (fun _ _ => none)).reposPage 1
        = none ∧
      list_repos (Env.mk (fun _ => none) (fun _ _ => none) (fun _ _ => none) (fun _ _ => none)) 3
        = .ok [] :=
  ⟨rfl, list_repos_transport_failure_noop
    (Env.mk (fun _ => none) (fun _ _ => none) (fun _ _ => none) (fun _ _ => none)) 1 3
    (Nat.le_refl 1) (by omega)
    (fun q h1 h2 => absurd h2 (Nat.not_lt.mpr h1)) rfl⟩

instance {ε α : Type} [DecidableEq ε] [DecidableEq α] : DecidableEq (Except ε α)
  | .ok a, .ok b => if h : a = b then .isTrue (by rw [h]) else .isFalse (by simp [h])
  | .ok _, .error _ => .isFalse (by simp)
  | .error _, .ok _ => .isFalse (by simp)
  | .error e, .error f => if h : e = f then .isTrue (by rw [h]) else .isFalse (by simp [h])

/-- Value of `has_discussions` on an object response. -/
theorem has_discussions_obj (env : Env) (repo label : J) (kvs : List (String × J))
    (hg : env.gql repo label = some (.obj kvs)) :
    has_discussions env repo label =
      (if truthy ((objLookup kvs "errors").getD .null) then .ok none
       else
        match extractCount kvs with
        | some n => .ok (some (decide (0 < n)))
        | none => .ok none) := by
  unfold has_discussions
  rw [hg]

/-- C7 (counterexample): an environment whose GraphQL endpoint successfully
returns the malformed (non-object) body `1`. -/
def envGqlNum : Env :=
  Env.mk (fun _ => none) (fun _ _ => none) (fun _ _ => none) (fun _ _ => some (.num 1))

/-- C7 (counterexample): on the successful but malformed non-object GraphQL
response `1`, the discussions check does not return an indeterminate result:
`data.get("errors")` raises `AttributeError` outside any `try` block, so the
check raises instead of returning.  This refutes the claim that a malformed
response yields an indeterminate return. -/
theorem has_discussions_indeterminate_counterexample :
    envGqlNum.gql (.str "o/r") (.str "x") = some (.num 1) ∧
      has_discussions envGqlNum (.str "o/r") (.str "x") = .error .attributeError ∧
      ∀ r : Option Bool, has_discussions envGqlNum (.str "o/r") (.str "x") ≠ .ok r := by
  refine ⟨rfl, rfl, by decide⟩

/-- C7 (amended theorem): the discussions check returns a definite answer only
from a successful object response without a truthy `errors` field whose
discussion count extracts to an integer, and the answer is `count > 0`; a
transport failure, a truthy `errors` field on an object response, and a
failed count extraction from an object response all yield the indeterminate
result (never a definite "zero usage"); a successful non-object response
raises `AttributeError` instead of returning. -/
theorem has_discussions_definite_only_on_success (env : Env) (repo label : J) :
    (∀ b, has_discussions env repo label = .ok (some b) →
      ∃ kvs n, env.gql repo label = some (.obj kvs) ∧
        truthy ((objLookup kvs "errors").getD .null) = false ∧
        extractCount kvs = some n ∧ b = decide (0 < n)) ∧
    (env.gql repo label = none → has_discussions env repo label = .ok none) ∧
    (∀ kvs, env.gql repo label = some (.obj kvs) →
      truthy ((objLookup kvs "errors").getD .null) = true →
      has_discussions env repo label = .ok none) ∧
    (∀ kvs, env.gql repo label = some (.obj kvs) →
      truthy ((objLookup kvs "errors").getD .null) = false →
      extractCount kvs = none →
      has_discussions env repo label = .ok none) ∧
    (∀ j, env.gql repo label = some j → (∀ kvs, j ≠ .obj kvs) →
      has_discussions env repo label = .error .attributeError) := by
  have hnonobj : ∀ j, env.gql repo label = some j → (∀ kvs, j ≠ .obj kvs) →
      has_discussions env repo label = .error .attributeError := by
    intro j hg hobj
    unfold has_discussions
    rw [hg]
    cases j with
    | obj kvs => exact absurd rfl (hobj kvs)
    | null => rfl
    | bool b => rfl
    | num n => rfl
    | str s => rfl
    | arr xs => rfl
  refine ⟨?_, ?_, ?_, ?_, hnonobj⟩
  · intro b hb
    match hg : env.gql repo label with
    | none =>
      have hval : has_discussions env repo label = .ok none := by
        unfold has_discussions; rw [hg]
      rw [hval] at hb
      exact absurd (Except.ok.inj hb) (by simp)
    | some (.obj kvs) =>
      by_cases herr : truthy ((objLookup kvs "errors").getD .null) = true
      · have hval : has_discussions env repo label = .ok none := by
          rw [has_discussions_obj env repo label kvs hg, if_pos herr]
        rw [hval] at hb
        exact absurd (Except.ok.inj hb) (by simp)
      · match hc : extractCount kvs with
        | some n =>
          have hval : has_discussions env repo label = .ok (some (decide (0 < n))) := by
            rw [has_discussions_obj env repo label kvs hg, if_neg herr, hc]
          rw [hval] at hb
          exact ⟨kvs, n, rfl, by simpa using herr, hc,
            (Option.some.inj (Except.ok.inj hb)).symm⟩
        | none =>
          have hval : has_discussions env repo label = .ok none := by
            rw [has_discussions_obj env repo label kvs hg, if_neg herr, hc]
          rw [hval] at hb
          exact absurd (Except.ok.inj hb) (by simp)
    | some .null =>
      rw [hnonobj .null hg (fun kvs => by simp)] at hb
      exact Except.noConfusion hb
    | some (.bool c) =>
      rw [hnonobj (.bool c) hg (fun kvs => by simp)] at hb
      exact Except.noConfusion hb
    | some (.num c) =>
      rw [hnonobj (.num c) hg (fun kvs => by simp)] at hb
      exact Except.noConfusion hb
    | some (.str c) =>
      rw [hnonobj (.str c) hg (fun kvs => by simp)] at hb
      exact Except.noConfusion hb
    | some (.arr c) =>
      rw [hnonobj (.arr c) hg (fun kvs => by simp)] at hb
      exact Except.noConfusion hb
  · intro hg; unfold has_discussions; rw [hg]
  · intro kvs hg herr
    rw [has_discussions_obj env repo label kvs hg, if_pos herr]
  · intro kvs hg herr hc
    rw [has_discussions_obj env repo label kvs hg, if_neg (by simp [herr]), hc]

/-- C7 (witness): a successful object response with a zero count yields the
definite answer "no usage", and that answer indeed comes with the success
evidence of the theorem. -/
theorem has_discussions_definite_witness :
    has_discussions
        (Env.mk (fun _ => none) (fun _ _ => none) (fun _ _ => none)
          (fun _ _ => some (.obj [("data", .obj [("search", .obj [("discussionCount", .num 0)])])])))
        (.str "o/r") (.str "x") = .ok (some false) ∧
      ∃ kvs n,
        (Env.mk (fun _ => none) (fun _ _ => none) (fun _ _ => none)
          (fun _ _ => some (.obj [("data", .obj [("search", .obj [("discussionCount", .num 0)])])]))).gql
            (.str "o/r") (.str "x") = some (.obj kvs) ∧
        truthy ((objLookup kvs "errors").getD .null) = false ∧
        extractCount kvs = some n ∧ false = decide (0 < n) :=
  ⟨by decide,
   (has_discussions_definite_only_on_success
      (Env.mk (fun _ => none) (fun _ _ => none) (fun _ _ => none)
        (fun _ _ => some (.obj [("data", .obj [("search", .obj [("discussionCount", .num 0)])])])))
      (.str "o/r") (.str "x")).1 false (by decide)⟩

/-- Every record built by the row loop of `list_labels` has a truthy name, a
truthy color, and a description that is either the (truthy) original value or
the empty string. -/
theorem labelsBuild_mem : ∀ rows ls, labelsBuild rows = .ok ls →
    ∀ l ∈ ls, truthy l.name = true ∧ truthy l.color = true ∧
      (truthy l.description = true ∨ l.description = .str "")
  | [], ls, h => by
    unfold labelsBuild at h
    cases h
    intro l hl
    exact absurd hl (List.not_mem_nil l)
  | r :: rest, ls, h => by
    unfold labelsBuild at h
    split at h
    · exact absurd h (by simp)
    · split at h
      · exact absurd h (by simp)
      · split at h
        · exact labelsBuild_mem rest ls h
        · rename_i hskip
          push_neg at hskip
          obtain ⟨hname, hcolor⟩ := hskip
          split at h
          · exact absurd h (by simp)
          · rename_i d hd
            split at h
            · exact absurd h (by simp)
            · rename_i tail ht
              cases h
              intro l hl
              rcases List.mem_cons.mp hl with hl | hl
              · subst hl
                refine ⟨by simpa using hname, by simpa using hcolor, ?_⟩
                by_cases htd : truthy d = true
                · left; simp [htd]
                · right; simp [htd]
              · exact labelsBuild_mem rest tail ht l hl

/-- C10 (counterexample): a label row whose description is the truthy
non-string `7` is returned with that description unchanged, not with a string
description.  This refutes the claim that every returned entry has a string
description. -/
theorem list_labels_string_description_counterexample :
    list_labels
        (Env.mk (fun _ => none)
          (fun _ p => if p = 1
            then some (.arr [.obj [("name", .str "a"), ("color", .str "b"), ("description", .num 7)]])
            else some (.arr []))
          (fun _ _ => none) (fun _ _ => none))
        (.str "o/r") 5
      = .ok [⟨.str "a", .str "b", .num 7⟩] ∧ (J.num 7).isStr = false := by
  refine ⟨by decide, rfl⟩

/-- C10 (amended theorem): every label entry returned by the label reader has
a truthy (in particular, for strings, non-empty) name and a truthy color, and
its description is either the truthy original value (passed through unchanged
even when it is not a string) or the empty string that replaced a falsy or
missing one. -/
theorem list_labels_sanitizes (env : Env) (repo : J) (fuel : Nat)
    (ls : List PyLabel) (h : list_labels env repo fuel = .ok ls) :
    ∀ l ∈ ls, truthy l.name = true ∧ truthy l.color = true ∧
      (truthy l.description = true ∨ l.description = .str "") := by
  unfold list_labels at h
  split at h
  · exact absurd h (by simp)
  · cases h
    intro l hl
    exact absurd hl (List.not_mem_nil l)
  · rename_i rows hrows
    split at h
    · exact absurd h (by simp)
    · rename_i ls2 hb
      cases h
      exact labelsBuild_mem rows _ hb

/-- C10 (witness): the reader keeps a well-formed entry and a truthy
non-string description, both satisfying the amended sanitization property. -/
theorem list_labels_sanitizes_witness :
    list_labels
        (Env.mk (fun _ => none)
          (fun _ p => if p = 1
            then some (.arr [.obj [("name", .str "a"), ("color", .str "b"), ("description", .num 7)]])
            else some (.arr []))
          (fun _ _ => none) (fun _ _ => none))
        (.str "o/r") 5
      = .ok [⟨.str "a", .str "b", .num 7⟩] ∧
    ∀ l ∈ [(⟨.str "a", .str "b", .num 7⟩ : PyLabel)],
      truthy l.name = true ∧ truthy l.color = true ∧
        (truthy l.description = true ∨ l.description = .str "") :=
  ⟨by decide,
   list_labels_sanitizes
     (Env.mk (fun _ => none)
       (fun _ p => if p = 1
         then some (.arr [.obj [("name", .str "a"), ("color", .str "b"), ("description", .num 7)]])
         else some (.arr []))
       (fun _ _ => none) (fun _ _ => none))
     (.str "o/r") 5 [⟨.str "a", .str "b", .num 7⟩] (by decide)⟩

/-! Trace lemmas: how the event traces of the loops decompose. -/

/-- Sequencing a normally-returning computation concatenates the traces. -/
theorem seqM_of_ok {x : M Unit} (y : M Unit) (hx : x.2 = .ok ()) :
    seqM x y = (x.1 ++ y.1, y.2) := by
  obtain ⟨xe, xr⟩ := x
  cases xr with
  | ok a => rfl
  | exn e => exact absurd hx (by simp)
  | div => exact absurd hx (by simp)

/-- Every event of a sequenced trace comes from one of the two parts. -/
theorem mem_seqM {e : Event} {x y : M Unit} (h : e ∈ (seqM x y).1) :
    e ∈ x.1 ∨ e ∈ y.1 := by
  obtain ⟨xe, xr⟩ := x
  cases xr with
  | ok a => simpa [seqM] using h
  | exn f => simp [seqM] at h; exact Or.inl h
  | div => simp [seqM] at h; exact Or.inl h

/-- Concatenation of the per-item traces of a loop. -/
def traceConcat (f : α → List Event) : List α → List Event
  | [] => []
  | x :: xs => f x ++ traceConcat f xs

/-- Counting over a concatenated trace sums the per-item counts. -/
theorem traceConcat_countP (f : α → List Event) (p : Event → Bool) :
    ∀ l : List α, (traceConcat f l).countP p = (l.map fun x => (f x).countP p).sum
  | [] => rfl
  | x :: xs => by
    simp [traceConcat, List.countP_append, traceConcat_countP f p xs]

/-- Membership in a concatenated trace. -/
theorem mem_traceConcat {e : Event} (f : α → List Event) :
    ∀ l : List α, e ∈ traceConcat f l → ∃ x ∈ l, e ∈ f x
  | [], h => absurd h (List.not_mem_nil e)
  | x :: xs, h => by
    rcases List.mem_append.mp h with h | h
    · exact ⟨x, List.mem_cons_self x xs, h⟩
    · obtain ⟨y, hy, he⟩ := mem_traceConcat f xs h
      exact ⟨y, List.mem_cons_of_mem x hy, he⟩

/-- Shape of every event a single reconciliation step can emit: it concerns
the name read from the target, and it is a create or update action (never a
delete, a processing line, or a summary line). -/
theorem syncOne_events (repo : J) (ex : List PyLabel) (t : J) :
    ∀ e ∈ (syncOne repo ex t).1, ∃ n, pyGetItem t "name" = .ok n ∧
      (e = .logCreating repo n ∨ (∃ c d, e = .createCall repo n c d) ∨
       e = .logUpdating repo n ∨ (∃ c d, e = .updateCall repo n c d)) := by
  unfold syncOne
  split
  · simp
  · rename_i name hname
    split
    · simp
    · rename_i color hcolor
      split
      · simp
      · rename_i description hdescription
        split
        · rename_i l hfind
          split
          · simp
          · rename_i exc hexc
            split
            · simp
            · rename_i c hc
              split
              · split
                · intro e he
                  simp at he
                  exact ⟨name, hname, by simp [he]⟩
                · intro e he
                  simp at he
                  rcases he with he | he
                  · exact ⟨name, hname, by simp [he]⟩
                  · exact ⟨name, hname, by simp [he]⟩
              · simp
        · intro e he
          simp at he
          rcases he with he | he
          · exact ⟨name, hname, by simp [he]⟩
          · exact ⟨name, hname, by simp [he]⟩

/-- Shape of every event a single pruning step can emit: it concerns the given
extra label, and it is a skip, delete, or keep action. -/
theorem cleanupOne_events (env : Env) (repo n : J) :
    ∀ e ∈ (cleanupOne env repo n).1,
      e = .logSkipping repo n ∨ e = .logDeleting repo n ∨
      e = .deleteCall repo n ∨ e = .logKeeping repo n := by
  unfold cleanupOne
  split
  · simp
  · rename_i d hd
    intro e he
    by_cases h1 : has_issues_or_prs env repo n = none ∨ d = none
    · simp [h1] at he
      simp [he]
    · by_cases h2 : has_issues_or_prs env repo n = some false ∧ d = some false
      · match hq : pyQuote n with
        | .error er =>
          simp [h1, h2, hq] at he
          simp [he]
        | .ok s =>
          simp [h1, h2, hq] at he
          rcases he with he | he <;> simp [he]
      · simp [h1, h2] at he
        simp [he]

/-- Every event of the reconciliation loop comes from the step of one target. -/
theorem syncLoop_events (repo : J) (ex : List PyLabel) :
    ∀ ts : List J, ∀ e ∈ (syncLoop repo ex ts).1, ∃ t ∈ ts, e ∈ (syncOne repo ex t).1
  | [], e, he => absurd he (List.not_mem_nil e)
  | t :: rest, e, he => by
    rcases mem_seqM he with h | h
    · exact ⟨t, List.mem_cons_self t rest, h⟩
    · obtain ⟨u, hu, hx⟩ := syncLoop_events repo ex rest e h
      exact ⟨u, List.mem_cons_of_mem t hu, hx⟩

/-- Every event of the pruning loop comes from the step of one extra label. -/
theorem cleanupLoop_events (env : Env) (repo : J) :
    ∀ ns : List J, ∀ e ∈ (cleanupLoop env repo ns).1, ∃ n ∈ ns, e ∈ (cleanupOne env repo n).1
  | [], e, he => absurd he (List.not_mem_nil e)
  | n :: rest, e, he => by
    rcases mem_seqM he with h | h
    · exact ⟨n, List.mem_cons_self n rest, h⟩
    · obtain ⟨m, hm, hx⟩ := cleanupLoop_events env repo rest e h
      exact ⟨m, List.mem_cons_of_mem n hm, hx⟩

/-- Every event of `sync_labels` comes from the reconciliation loop over the
decoded target list and the fetched label set. -/
theorem sync_labels_events (env : Env) (repo tl : J) (fuel : Nat) :
    ∀ e ∈ (sync_labels env repo tl fuel).1, ∃ ex ts,
      list_labels env repo fuel = .ok ex ∧ pyIter tl = .ok ts ∧
      e ∈ (syncLoop repo ex ts).1 := by
  unfold sync_labels
  split
  · simp
  · simp
  · rename_i ex hex
    split
    · simp
    · split
      · simp
      · rename_i ts hts
        intro e he
        exact ⟨ex, ts, hex, hts, he⟩

/-- Every event of `cleanup_labels` comes from the pruning loop over the extra
labels of the fetched label set. -/
theorem cleanup_labels_events (env : Env) (repo : J) (tns : List J) (fuel : Nat) :
    ∀ e ∈ (cleanup_labels env repo tns fuel).1, ∃ ex,
      list_labels env repo fuel = .ok ex ∧
      e ∈ (cleanupLoop env repo (extraOf ex tns)).1 := by
  unfold cleanup_labels
  split
  · simp
  · simp
  · rename_i ex hex
    intro e he
    exact ⟨ex, hex, he⟩

/-- Every event of the repository loop is either the progress line of a listed
repository or an event of its reconciliation or pruning. -/
theorem repoLoop_events (env : Env) (tl : J) (tns : List J) (fuel : Nat) :
    ∀ rs : List J, ∀ e ∈ (repoLoop env tl tns fuel rs).1, ∃ r ∈ rs,
      e = .processing r ∨ e ∈ (sync_labels env r tl fuel).1 ∨
      e ∈ (cleanup_labels env r tns fuel).1
  | [], e, he => absurd he (List.not_mem_nil e)
  | r :: rest, e, he => by
    rcases mem_seqM he with h | h
    · simp at h
      exact ⟨r, List.mem_cons_self r rest, Or.inl h⟩
    · rcases mem_seqM h with h | h
      · exact ⟨r, List.mem_cons_self r rest, Or.inr (Or.inl h)⟩
      · rcases mem_seqM h with h | h
        · exact ⟨r, List.mem_cons_self r rest, Or.inr (Or.inr h)⟩
        · obtain ⟨u, hu, hx⟩ := repoLoop_events env tl tns fuel rest e h
          exact ⟨u, List.mem_cons_of_mem r hu, hx⟩

/-- Every event of the body of `main` is the final line or an event of the
repository loop over the enumerated repositories, the desired-name projection
having succeeded. -/
theorem mainBody_events (env : Env) (tl : J) (fuel : Nat) :
    ∀ e ∈ (mainBody env tl fuel).1, ∃ tns rs,
      namesOf tl = .ok tns ∧ list_repos env fuel = .ok rs ∧
      (e = .done ∨ e ∈ (repoLoop env tl tns fuel rs).1) := by
  unfold mainBody
  split
  · simp
  · rename_i tns htns
    split
    · simp
    · simp
    · rename_i rs hrs
      intro e he
      rcases mem_seqM he with h | h
      · exact ⟨tns, rs, htns, hrs, Or.inr h⟩
      · simp at h
        exact ⟨tns, rs, htns, hrs, Or.inl h⟩

/-- The events of a finished run are empty (credential or configuration
failure) or the trace of the body on the decoded configuration. -/
theorem main_events (tok : Option String) (cfg : Option J) (env : Env) (fuel : Nat)
    (c : Nat) (evs : List Event) (h : main tok cfg env fuel = .exited c evs) :
    evs = [] ∨ ∃ tl, cfg = some tl ∧ evs = (mainBody env tl fuel).1 := by
  unfold main at h
  split at h
  · cases h; exact Or.inl rfl
  · split at h
    · cases h; exact Or.inl rfl
    · rename_i tl
      split at h
      · rename_i evs2 hb
        cases h
        exact Or.inr ⟨tl, rfl, by rw [hb]⟩
      · rename_i evs2 e hb
        cases h
        exact Or.inr ⟨tl, rfl, by rw [hb]⟩
      · exact absurd h (by simp)

/-- No reconciliation event is a progress line. -/
theorem processing_not_in_sync (env : Env) (r tl : J) (fuel : Nat) (x : J) :
    Event.processing x ∉ (sync_labels env r tl fuel).1 := by
  intro h
  obtain ⟨ex, ts, _, _, hmem⟩ := sync_labels_events env r tl fuel _ h
  obtain ⟨t, _, hone⟩ := syncLoop_events r ex ts _ hmem
  obtain ⟨n, _, hshape⟩ := syncOne_events r ex t _ hone
  rcases hshape with h1 | ⟨c, d, h1⟩ | h1 | ⟨c, d, h1⟩ <;> simp at h1

/-- No pruning event is a progress line. -/
theorem processing_not_in_cleanup (env : Env) (r : J) (tns : List J) (fuel : Nat) (x : J) :
    Event.processing x ∉ (cleanup_labels env r tns fuel).1 := by
  intro h
  obtain ⟨ex, _, hmem⟩ := cleanup_labels_events env r tns fuel _ h
  obtain ⟨m, _, hone⟩ := cleanupLoop_events env r (extraOf ex tns) _ hmem
  rcases cleanupOne_events env r m _ hone with h1 | h1 | h1 | h1 <;> simp at h1

/-- Every repository kept by the enumeration comprehension stems from a fetched
row whose `archived` field is falsy. -/
theorem reposFilter_mem : ∀ rows rs, reposFilter rows = .ok rs →
    ∀ x ∈ rs, ∃ j ∈ rows, ∃ a, pyGet j "archived" = .ok a ∧ truthy a = false ∧
      pyGetItem j "full_name" = .ok x
  | [], rs, h => by
    unfold reposFilter at h
    cases h
    intro x hx
    exact absurd hx (List.not_mem_nil x)
  | r :: rest, rs, h => by
    unfold reposFilter at h
    split at h
    · exact absurd h (by simp)
    · rename_i a ha
      split at h
      · rename_i htr
        intro x hx
        obtain ⟨j, hj, w⟩ := reposFilter_mem rest rs h x hx
        exact ⟨j, List.mem_cons_of_mem r hj, w⟩
      · rename_i htr
        split at h
        · exact absurd h (by simp)
        · rename_i fn hfn
          split at h
          · exact absurd h (by simp)
          · rename_i tail htail
            cases h
            intro x hx
            rcases List.mem_cons.mp hx with hx | hx
            · subst hx
              exact ⟨r, List.mem_cons_self r rest, a, ha, by simpa using htr, hfn⟩
            · obtain ⟨j, hj, w⟩ := reposFilter_mem rest tail htail x hx
              exact ⟨j, List.mem_cons_of_mem r hj, w⟩

/-- C6 (theorem): every repository returned by the enumerator stems from a
fetched repository row whose `archived` field is falsy, and every repository
the driver processes (reconciles and prunes, as witnessed by its progress
line) is one returned by the enumerator — so archived repositories never
appear in the processed repository list. -/
theorem archived_repos_never_processed (env : Env) (fuel : Nat) :
    (∀ rs, list_repos env fuel = .ok rs → ∀ x ∈ rs,
      ∃ rows, pagedRun env.reposPage fuel 1 [] = .ok rows ∧
        ∃ j ∈ rows, ∃ a, pyGet j "archived" = .ok a ∧ truthy a = false ∧
          pyGetItem j "full_name" = .ok x) ∧
    (∀ tok cfg c evs x, main tok cfg env fuel = .exited c evs →
      Event.processing x ∈ evs → ∃ rs, list_repos env fuel = .ok rs ∧ x ∈ rs) := by
  constructor
  · intro rs h x hx
    unfold list_repos at h
    split at h
    · exact absurd h (by simp)
    · cases h
      exact absurd hx (List.not_mem_nil x)
    · rename_i rows hrows
      split at h
      · exact absurd h (by simp)
      · rename_i rs2 hrs2
        cases h
        exact ⟨rows, hrows, reposFilter_mem rows _ hrs2 x hx⟩
  · intro tok cfg c evs x hmain hx
    rcases main_events tok cfg env fuel c evs hmain with hnil | ⟨tl, hcfg, hevs⟩
    · subst hnil
      exact absurd hx (List.not_mem_nil _)
    · subst hevs
      obtain ⟨tns, rs, htns, hrs, hcase⟩ := mainBody_events env tl fuel _ hx
      rcases hcase with hdone | hloop
      · exact absurd hdone (by simp)
      · obtain ⟨r, hr, hcase2⟩ := repoLoop_events env tl tns fuel rs _ hloop
        rcases hcase2 with hpr | hsync | hclean
        · have : x = r := by simpa using hpr
          subst this
          exact ⟨rs, hrs, hr⟩
        · exact absurd hsync (processing_not_in_sync env r tl fuel x)
        · exact absurd hclean (processing_not_in_cleanup env r tns fuel x)

/-- C6 (witness): an enumeration with one archived and one live repository
returns only the live one, and the live row is certified non-archived. -/
theorem archived_repos_never_processed_witness :
    list_repos
        (Env.mk
          (fun p => if p = 1
            then some (.arr [.obj [("full_name", .str "o/a"), ("archived", .bool true)],
                             .obj [("full_name", .str "o/r")]])
            else some (.arr []))
          (fun _ _ => none) (fun _ _ => none) (fun _ _ => none)) 5
      = .ok [.str "o/r"] ∧
    (∃ rows, pagedRun (Env.mk
          (fun p => if p = 1
            then some (.arr [.obj [("full_name", .str "o/a"), ("archived", .bool true)],
                             .obj [("full_name", .str "o/r")]])
            else some (.arr []))
          (fun _ _ => none) (fun _ _ => none) (fun _ _ => none)).reposPage 5 1 [] = .ok rows ∧
      ∃ j ∈ rows, ∃ a, pyGet j "archived" = .ok a ∧ truthy a = false ∧
        pyGetItem j "full_name" = .ok (.str "o/r")) :=
  ⟨by decide,
   (archived_repos_never_processed
      (Env.mk
        (fun p => if p = 1
          then some (.arr [.obj [("full_name", .str "o/a"), ("archived", .bool true)],
                           .obj [("full_name", .str "o/r")]])
          else some (.arr []))
        (fun _ _ => none) (fun _ _ => none) (fun _ _ => none)) 5).1
     [.str "o/r"] (by decide) (.str "o/r") (by decide)⟩

/-- The name read from a listed target belongs to the projected name list. -/
theorem getNames_mem : ∀ (ts tns : List J), getNames ts = .ok tns →
    ∀ t ∈ ts, ∀ n, pyGetItem t "name" = .ok n → n ∈ tns
  | [], tns, h, t, ht, n, hn => absurd ht (List.not_mem_nil t)
  | t0 :: rest, tns, h, t, ht, n, hn => by
    unfold getNames at h
    split at h
    · exact absurd h (by simp)
    · rename_i n0 hn0
      split at h
      · exact absurd h (by simp)
      · rename_i tail htail
        cases h
        rcases List.mem_cons.mp ht with ht | ht
        · subst ht
          have hnn : n0 = n := Except.ok.inj (hn0.symm.trans hn)
          subst hnn
          exact List.mem_cons_self n0 tail
        · exact List.mem_cons_of_mem n0 (getNames_mem rest tail htail t ht n hn)

/-- An extra label name is outside the desired name list. -/
theorem extraOf_not_mem (ex : List PyLabel) (tns : List J) (n : J)
    (h : n ∈ extraOf ex tns) : n ∉ tns := by
  unfold extraOf at h
  simpa using (List.mem_filter.mp h).2

/-- C5 (theorem): in a single run over a decoded configuration whose name
projection succeeded, every issued create call carries a name from the
desired set and every issued delete call carries a name outside the desired
set; hence no label name receives both a create call and a delete call,
whether in the same repository or across repositories. -/
theorem no_create_delete_overlap (tok : Option String) (tl : J) (env : Env)
    (fuel c : Nat) (evs : List Event) (tns : List J)
    (hmain : main tok (some tl) env fuel = .exited c evs)
    (htns : namesOf tl = .ok tns) :
    (∀ r n cl d, Event.createCall r n cl d ∈ evs → n ∈ tns) ∧
    (∀ r n, Event.deleteCall r n ∈ evs → n ∉ tns) ∧
    (∀ n r r2 cl d, Event.createCall r n cl d ∈ evs → Event.deleteCall r2 n ∈ evs → False) := by
  have hcreate : ∀ r n cl d, Event.createCall r n cl d ∈ evs → n ∈ tns := by
    intro r n cl d hev
    rcases main_events tok (some tl) env fuel c evs hmain with hnil | ⟨tl2, htl2, hevs⟩
    · subst hnil; exact absurd hev (List.not_mem_nil _)
    · cases htl2
      subst hevs
      obtain ⟨tns0, rs, htns0, hrs, hcase⟩ := mainBody_events env tl fuel _ hev
      have htns0' : tns0 = tns := Except.ok.inj (htns0.symm.trans htns)
      subst htns0'
      rcases hcase with hdone | hloop
      · exact absurd hdone (by simp)
      obtain ⟨r0, hr0, hcase2⟩ := repoLoop_events env tl tns0 fuel rs _ hloop
      rcases hcase2 with hpr | hsync | hclean
      · exact absurd hpr (by simp)
      · obtain ⟨ex, ts, hls, hiter, hmem⟩ := sync_labels_events env r0 tl fuel _ hsync
        obtain ⟨t, hts, hone⟩ := syncLoop_events r0 ex ts _ hmem
        obtain ⟨m, hm, hshape⟩ := syncOne_events r0 ex t _ hone
        have hget : getNames ts = .ok tns0 := by
          unfold namesOf at htns0
          split at htns0
          · exact absurd htns0 (by simp)
          · rename_i ts2 hts2
            have : ts2 = ts := Except.ok.inj (hts2.symm.trans hiter)
            subst this
            exact htns0
        rcases hshape with h1 | ⟨c2, d2, h1⟩ | h1 | ⟨c2, d2, h1⟩
        · exact absurd h1 (by simp)
        · have hn : n = m := by
            have := Event.createCall.inj h1
            exact this.2.1
          subst hn
          exact getNames_mem ts tns0 hget t hts n hm
        · exact absurd h1 (by simp)
        · exact absurd h1 (by simp)
      · obtain ⟨ex, hls, hmem⟩ := cleanup_labels_events env r0 tns0 fuel _ hclean
        obtain ⟨m, hms, hone⟩ := cleanupLoop_events env r0 (extraOf ex tns0) _ hmem
        rcases cleanupOne_events env r0 m _ hone with h1 | h1 | h1 | h1 <;> simp at h1
  have hdelete : ∀ r n, Event.deleteCall r n ∈ evs → n ∉ tns := by
    intro r n hev
    rcases main_events tok (some tl) env fuel c evs hmain with hnil | ⟨tl2, htl2, hevs⟩
    · subst hnil; exact absurd hev (List.not_mem_nil _)
    · cases htl2
      subst hevs
      obtain ⟨tns0, rs, htns0, hrs, hcase⟩ := mainBody_events env tl fuel _ hev
      have htns0' : tns0 = tns := Except.ok.inj (htns0.symm.trans htns)
      subst htns0'
      rcases hcase with hdone | hloop
      · exact absurd hdone (by simp)
      obtain ⟨r0, hr0, hcase2⟩ := repoLoop_events env tl tns0 fuel rs _ hloop
      rcases hcase2 with hpr | hsync | hclean
      · exact absurd hpr (by simp)
      · obtain ⟨ex, ts, hls, hiter, hmem⟩ := sync_labels_events env r0 tl fuel _ hsync
        obtain ⟨t, hts, hone⟩ := syncLoop_events r0 ex ts _ hmem
        obtain ⟨m, hm, hshape⟩ := syncOne_events r0 ex t _ hone
        rcases hshape with h1 | ⟨c2, d2, h1⟩ | h1 | ⟨c2, d2, h1⟩ <;> simp at h1
      · obtain ⟨ex, hls, hmem⟩ := cleanup_labels_events env r0 tns0 fuel _ hclean
        obtain ⟨m, hms, hone⟩ := cleanupLoop_events env r0 (extraOf ex tns0) _ hmem
        rcases cleanupOne_events env r0 m _ hone with h1 | h1 | h1 | h1
        · exact absurd h1 (by simp)
        · exact absurd h1 (by simp)
        · have hn : n = m := (Event.deleteCall.inj h1).2
          subst hn
          exact extraOf_not_mem ex tns0 n hms
        · exact absurd h1 (by simp)
  exact ⟨hcreate, hdelete,
    fun n r r2 cl d hc hd => absurd (hcreate r n cl d hc) (fun hmem => hdelete r2 n hd hmem)⟩

/-- A happy-path environment for witnesses: one repository `o/r` carrying one
label `x` that is referenced nowhere. -/
def wEnv : Env :=
  Env.mk
    (fun p => if p = 1 then some (.arr [.obj [("full_name", .str "o/r")]]) else some (.arr []))
    (fun _ p => if p = 1 then some (.arr [.obj [("name", .str "x"), ("color", .str "c")]])
                else some (.arr []))
    (fun _ _ => some (.arr []))
    (fun _ _ => some (.obj [("data", .obj [("search", .obj [("discussionCount", .num 0)])])]))

/-- A desired-label configuration for witnesses: the single label `bug`. -/
def wCfg : J :=
  .arr [.obj [("name", .str "bug"), ("color", .str "d73a4a"), ("description", .str "Bug")]]

/-- The event trace of the happy-path run: create the missing `bug`, delete
the unused `x`, finish. -/
def wEvs : List Event :=
  [.processing (.str "o/r"), .logCreating (.str "o/r") (.str "bug"),
   .createCall (.str "o/r") (.str "bug") (.str "d73a4a") (.str "Bug"),
   .logDeleting (.str "o/r") (.str "x"), .deleteCall (.str "o/r") (.str "x"), .done]

/-- C5 (witness): on the happy-path run the created name `bug` lies in the
desired set and the deleted name `x` outside it. -/
theorem no_create_delete_overlap_witness :
    main (some "t") (some wCfg) wEnv 5 = .exited 0 wEvs ∧
    namesOf wCfg = .ok [.str "bug"] ∧
    ((∀ r n cl d, Event.createCall r n cl d ∈ wEvs → n ∈ [J.str "bug"]) ∧
     (∀ r n, Event.deleteCall r n ∈ wEvs → n ∉ [J.str "bug"]) ∧
     (∀ n r r2 cl d, Event.createCall r n cl d ∈ wEvs → Event.deleteCall r2 n ∈ wEvs → False)) :=
  ⟨by decide, by decide,
   no_create_delete_overlap (some "t") wCfg wEnv 5 0 wEvs [.str "bug"] (by decide) (by decide)⟩

/-- A sequenced trace that returned normally splits into both parts, both of
which returned normally. -/
theorem seqM_ok_snd {x y : M Unit} {evs : List Event} (h : seqM x y = (evs, .ok ())) :
    ∃ e0, evs = e0 ++ y.1 ∧ x.2 = .ok () ∧ y.2 = .ok () := by
  obtain ⟨xe, xr⟩ := x
  cases xr with
  | ok a =>
    injection h with h1 h2
    exact ⟨xe, h1.symm, rfl, h2⟩
  | exn e => exact absurd (congrArg Prod.snd h) (by simp [seqM])
  | div => exact absurd (congrArg Prod.snd h) (by simp [seqM])

/-- A normally-returning body trace ends with the final line. -/
theorem mainBody_ok_trace (env : Env) (tl : J) (fuel : Nat) (evs : List Event)
    (h : mainBody env tl fuel = (evs, .ok ())) :
    ∃ evs0, evs = evs0 ++ [.done] := by
  unfold mainBody at h
  split at h
  · exact absurd (congrArg Prod.snd h) (by simp)
  · split at h
    · exact absurd (congrArg Prod.snd h) (by simp)
    · exact absurd (congrArg Prod.snd h) (by simp)
    · obtain ⟨e0, hevs, -, -⟩ := seqM_ok_snd h
      exact ⟨e0, hevs⟩

/-- C3 (counterexample): a run in which the label `x` is kept because an issue
references it.  The driver prints the per-label keep line during pruning and
then only the final line: it prints neither a "no extra labels in use" line
nor any grouped report entry with number, url and title.  This refutes the
claim that the driver ends with one of those two summaries. -/
theorem driver_summary_counterexample :
    main (some "t")
        (some (.arr []))
        (Env.mk
          (fun p => if p = 1 then some (.arr [.obj [("full_name", .str "o/r")]])
                    else some (.arr []))
          (fun _ p => if p = 1 then some (.arr [.obj [("name", .str "x"), ("color", .str "c")]])
                      else some (.arr []))
          (fun _ _ => some (.arr [.obj [("number", .num 1)]]))
          (fun _ _ => some (.obj [("data", .obj [("search", .obj [("discussionCount", .num 0)])])])))
        5
      = .exited 0 [.processing (.str "o/r"), .logKeeping (.str "o/r") (.str "x"), .done] ∧
    Event.noExtraLabelsInUse
        ∉ [Event.processing (.str "o/r"), .logKeeping (.str "o/r") (.str "x"), .done] ∧
    ∀ e ∈ [Event.processing (.str "o/r"), .logKeeping (.str "o/r") (.str "x"), .done],
      isReportEvent e = false := by
  refine ⟨by decide, by decide, by decide⟩

/-- C3 (amended theorem): the driver prints no summary at all: no run ever
emits a "no extra labels in use" line or a grouped report entry; labels kept
because they are referenced are logged individually as keep lines during
pruning, and a run that completes normally ends its output with "Done.". -/
theorem driver_prints_no_summary (tok : Option String) (cfg : Option J) (env : Env)
    (fuel c : Nat) (evs : List Event)
    (hmain : main tok cfg env fuel = .exited c evs) :
    Event.noExtraLabelsInUse ∉ evs ∧ (∀ e ∈ evs, isReportEvent e = false) ∧
    (c = 0 → evs.getLast? = some .done) := by
  have hshape : ∀ e ∈ evs, e ≠ Event.noExtraLabelsInUse ∧ isReportEvent e = false := by
    intro e he
    rcases main_events tok cfg env fuel c evs hmain with hnil | ⟨tl, hcfg, hevs⟩
    · subst hnil; exact absurd he (List.not_mem_nil e)
    · subst hevs
      obtain ⟨tns, rs, htns, hrs, hcase⟩ := mainBody_events env tl fuel e he
      rcases hcase with hdone | hloop
      · subst hdone; exact ⟨by simp, rfl⟩
      obtain ⟨r0, hr0, hcase2⟩ := repoLoop_events env tl tns fuel rs e hloop
      rcases hcase2 with hpr | hsync | hclean
      · subst hpr; exact ⟨by simp, rfl⟩
      · obtain ⟨ex, ts, hls, hiter, hmem⟩ := sync_labels_events env r0 tl fuel e hsync
        obtain ⟨t, hts, hone⟩ := syncLoop_events r0 ex ts e hmem
        obtain ⟨m, hm, hsh⟩ := syncOne_events r0 ex t e hone
        rcases hsh with h1 | ⟨c2, d2, h1⟩ | h1 | ⟨c2, d2, h1⟩ <;>
          · subst h1; exact ⟨by simp, rfl⟩
      · obtain ⟨ex, hls, hmem⟩ := cleanup_labels_events env r0 tns fuel e hclean
        obtain ⟨m, hms, hone⟩ := cleanupLoop_events env r0 (extraOf ex tns) e hmem
        rcases cleanupOne_events env r0 m e hone with h1 | h1 | h1 | h1 <;>
          · subst h1; exact ⟨by simp, rfl⟩
  refine ⟨fun hmem => (hshape _ hmem).1 rfl, fun e he => (hshape e he).2, ?_⟩
  intro hc
  subst hc
  unfold main at hmain
  split at hmain
  · exact absurd (RunResult.exited.inj hmain).1 (by simp)
  · split at hmain
    · exact absurd (RunResult.exited.inj hmain).1 (by simp)
    · rename_i tl
      split at hmain
      · rename_i evs2 u hb
        obtain ⟨hc2, hevs2⟩ := RunResult.exited.inj hmain
        subst hevs2
        obtain ⟨evs0, h0⟩ := mainBody_ok_trace env tl fuel evs2 (by rw [hb])
        rw [h0]
        simp
      · exact absurd (RunResult.exited.inj hmain).1 (by simp)
      · exact RunResult.noConfusion hmain

/-- C3 (witness): the happy-path run emits no summary lines and ends with the
final line. -/
theorem driver_prints_no_summary_witness :
    main (some "t") (some wCfg) wEnv 5 = .exited 0 wEvs ∧
    (Event.noExtraLabelsInUse ∉ wEvs ∧ (∀ e ∈ wEvs, isReportEvent e = false) ∧
     (0 = 0 → wEvs.getLast? = some .done)) :=
  ⟨by decide,
   driver_prints_no_summary (some "t") (some wCfg) wEnv 5 0 wEvs (by decide)⟩

/-! Per-target evaluation of the reconciliation step and counting lemmas. -/

/-- A truthy `isStr` test exposes the string. -/
theorem isStr_exists {j : J} (h : j.isStr = true) : ∃ s, j = .str s := by
  cases j <;> first | exact ⟨_, rfl⟩ | simp [J.isStr] at h

/-- A record found in the name index belongs to the label list. -/
theorem dictFind_mem {ex : List PyLabel} {n : J} {l : PyLabel}
    (h : dictFind ex n = some l) : l ∈ ex := by
  unfold dictFind at h
  exact List.mem_reverse.mp (List.mem_of_find?_eq_some h)

/-- Reconciliation step on a missing label: one create call with the desired
color and description, preceded by its log line. -/
theorem syncOne_create (repo : J) (ex : List PyLabel) (t n c d : J)
    (hn : pyGetItem t "name" = .ok n) (hc : pyGetItem t "color" = .ok c)
    (hd : pyGetItem t "description" = .ok d) (hmiss : dictFind ex n = none) :
    syncOne repo ex t = ([.logCreating repo n, .createCall repo n c d], .ok ()) := by
  simp [syncOne, hn, hc, hd, hmiss]

/-- Reconciliation step on a present label that differs in lowered color or in
description: one update call with the desired values, preceded by its log
line. -/
theorem syncOne_update (repo : J) (ex : List PyLabel) (t n c d : J) (l : PyLabel)
    (lc tc s : String)
    (hn : pyGetItem t "name" = .ok n) (hc : pyGetItem t "color" = .ok c)
    (hd : pyGetItem t "description" = .ok d) (hfind : dictFind ex n = some l)
    (hlc : pyLower l.color = .ok lc) (htc : pyLower c = .ok tc)
    (hq : pyQuote n = .ok s)
    (hne : lc ≠ tc ∨ l.description ≠ d) :
    syncOne repo ex t = ([.logUpdating repo n, .updateCall repo n c d], .ok ()) := by
  simp [syncOne, hn, hc, hd, hfind, hlc, htc, hq, hne]

/-- Reconciliation step on a present label that matches in lowered color and
description: no event. -/
theorem syncOne_noop (repo : J) (ex : List PyLabel) (t n c d : J) (l : PyLabel)
    (lc : String)
    (hn : pyGetItem t "name" = .ok n) (hc : pyGetItem t "color" = .ok c)
    (hd : pyGetItem t "description" = .ok d) (hfind : dictFind ex n = some l)
    (hlc : pyLower l.color = .ok lc) (htc : pyLower c = .ok lc)
    (hdesc : l.description = d) :
    syncOne repo ex t = ([], .ok ()) := by
  simp [syncOne, hn, hc, hd, hfind, hlc, htc, hdesc]

/-- Under well-formed targets (string names and colors) and string-colored
label records, the reconciliation step returns normally. -/
theorem syncOne_ok (repo : J) (ex : List PyLabel) (t : J)
    (htg : ∃ n c d, pyGetItem t "name" = .ok n ∧ n.isStr = true ∧
      pyGetItem t "color" = .ok c ∧ c.isStr = true ∧ pyGetItem t "description" = .ok d)
    (hex : ∀ l ∈ ex, l.color.isStr = true) :
    (syncOne repo ex t).2 = .ok () := by
  obtain ⟨n, c, d, hn, hns, hc, hcs, hd⟩ := htg
  obtain ⟨sn, hsn⟩ := isStr_exists hns
  obtain ⟨sc, hsc⟩ := isStr_exists hcs
  match hfind : dictFind ex n with
  | none => rw [syncOne_create repo ex t n c d hn hc hd hfind]
  | some l =>
    obtain ⟨sl, hsl⟩ := isStr_exists (hex l (dictFind_mem hfind))
    have hlc : pyLower l.color = .ok sl.toLower := by rw [hsl]; rfl
    have htc : pyLower c = .ok sc.toLower := by rw [hsc]; rfl
    by_cases hne : sl.toLower ≠ sc.toLower ∨ l.description ≠ d
    · have hq : pyQuote n = .ok sn := by rw [hsn]; rfl
      rw [syncOne_update repo ex t n c d l sl.toLower sc.toLower sn hn hc hd hfind hlc htc hq hne]
    · push_neg at hne
      rw [syncOne_noop repo ex t n c d l sl.toLower hn hc hd hfind hlc (hne.1 ▸ htc) hne.2]

/-- When every step returns normally, the reconciliation loop returns normally
with the concatenation of the per-target traces. -/
theorem syncLoop_flat (repo : J) (ex : List PyLabel) :
    ∀ ts : List J, (∀ t ∈ ts, (syncOne repo ex t).2 = .ok ()) →
      syncLoop repo ex ts = (traceConcat (fun t => (syncOne repo ex t).1) ts, .ok ())
  | [], _ => rfl
  | t :: rest, h => by
    rw [syncLoop,
      syncLoop_flat repo ex rest (fun u hu => h u (List.mem_cons_of_mem t hu)),
      seqM_of_ok _ (h t (List.mem_cons_self t rest))]
    rfl

/-- A reconciliation step for a target with a different name issues no create
or update call for the name `n`. -/
theorem syncOne_count_ne (repo : J) (ex : List PyLabel) (u nu n : J)
    (hu : pyGetItem u "name" = .ok nu) (hne : nu ≠ n) :
    (syncOne repo ex u).1.countP (isCreateFor n) = 0 ∧
    (syncOne repo ex u).1.countP (isUpdateFor n) = 0 := by
  constructor <;>
  · rw [List.countP_eq_zero]
    intro e he
    obtain ⟨m, hm, hsh⟩ := syncOne_events repo ex u e he
    have hmu : m = nu := Except.ok.inj (hm.symm.trans hu)
    subst hmu
    rcases hsh with h1 | ⟨c2, d2, h1⟩ | h1 | ⟨c2, d2, h1⟩ <;>
      subst h1 <;> simp [isCreateFor, isUpdateFor, hne]

/-- Targets whose names avoid `n` contribute no create or update call for `n`. -/
theorem traceConcat_count_zero (repo : J) (ex : List PyLabel) (n : J) :
    ∀ (ts tns : List J), getNames ts = .ok tns → n ∉ tns →
      (traceConcat (fun t => (syncOne repo ex t).1) ts).countP (isCreateFor n) = 0 ∧
      (traceConcat (fun t => (syncOne repo ex t).1) ts).countP (isUpdateFor n) = 0
  | [], tns, h, hn => by
    unfold getNames at h
    cases h
    exact ⟨rfl, rfl⟩
  | u :: rest, tns, h, hn => by
    unfold getNames at h
    split at h
    · exact absurd h (by simp)
    · rename_i nu hnu
      split at h
      · exact absurd h (by simp)
      · rename_i tail htail
        cases h
        have hmem : n ∉ tail := fun hx => hn (List.mem_cons_of_mem nu hx)
        have hne : nu ≠ n := fun hx => hn (hx ▸ List.mem_cons_self nu tail)
        obtain ⟨hc1, hu1⟩ := syncOne_count_ne repo ex u nu n hnu hne
        obtain ⟨hc2, hu2⟩ := traceConcat_count_zero repo ex n rest tail htail hmem
        constructor <;> simp [traceConcat, List.countP_append, hc1, hu1, hc2, hu2]

/-- With distinct target names, the whole-loop count of create and update
calls for the name of a listed target equals the count of that target's own
step. -/
theorem sync_counts (repo : J) (ex : List PyLabel) :
    ∀ (ts tns : List J), getNames ts = .ok tns → tns.Nodup →
      ∀ t ∈ ts, ∀ n, pyGetItem t "name" = .ok n →
        (traceConcat (fun u => (syncOne repo ex u).1) ts).countP (isCreateFor n)
          = (syncOne repo ex t).1.countP (isCreateFor n) ∧
        (traceConcat (fun u => (syncOne repo ex u).1) ts).countP (isUpdateFor n)
          = (syncOne repo ex t).1.countP (isUpdateFor n)
  | [], tns, h, hnd, t, ht, n, hn => absurd ht (List.not_mem_nil t)
  | u :: rest, tns, h, hnd, t, ht, n, hn => by
    unfold getNames at h
    split at h
    · exact absurd h (by simp)
    · rename_i nu hnu
      split at h
      · exact absurd h (by simp)
      · rename_i tail htail
        cases h
        have hnd2 := List.nodup_cons.mp hnd
        rcases List.mem_cons.mp ht with ht | ht
        · subst ht
          have hnun : nu = n := Except.ok.inj (hnu.symm.trans hn)
          subst hnun
          obtain ⟨hz1, hz2⟩ := traceConcat_count_zero repo ex nu rest tail htail hnd2.1
          constructor <;> simp [traceConcat, List.countP_append, hz1, hz2]
        · have hmemn : n ∈ tail := getNames_mem rest tail htail t ht n hn
          have hne : nu ≠ n := fun hx => hnd2.1 (hx ▸ hmemn)
          obtain ⟨hc1, hu1⟩ := syncOne_count_ne repo ex u nu n hnu hne
          obtain ⟨hc2, hu2⟩ := sync_counts repo ex rest tail htail hnd2.2 t ht n hn
          constructor <;> simp [traceConcat, List.countP_append, hc1, hu1, hc2, hu2]

/-- An event of a listed step occurs in the concatenated trace. -/
theorem mem_traceConcat_of {e : Event} (f : α → List Event) :
    ∀ (l : List α) (x : α), x ∈ l → e ∈ f x → e ∈ traceConcat f l
  | [], x, hx, he => absurd hx (List.not_mem_nil x)
  | y :: rest, x, hx, he => by
    rcases List.mem_cons.mp hx with hx | hx
    · subst hx
      exact List.mem_append.mpr (Or.inl he)
    · exact List.mem_append.mpr (Or.inr (mem_traceConcat_of f rest x hx he))

/-- A string value is a hashable dict key. -/
theorem isStr_isHashable {j : J} (h : j.isStr = true) : j.isHashable = true := by
  cases j <;> simp_all [J.isStr, J.isHashable]

/-- Building the name index returns normally when every name is hashable. -/
theorem checkHashable_ok : ∀ ex : List PyLabel,
    (∀ l ∈ ex, l.name.isHashable = true) → checkHashable ex = .ok ()
  | [], _ => rfl
  | l :: rest, h => by
    unfold checkHashable
    rw [if_pos (h l (List.mem_cons_self l rest))]
    exact checkHashable_ok rest (fun u hu => h u (List.mem_cons_of_mem l hu))

/-- The reconciler reduces to its target loop once the label fetch, the name
index build, and the target iteration are fixed. -/
theorem sync_labels_eq (env : Env) (repo targets : J) (fuel : Nat)
    (ex : List PyLabel) (ts : List J)
    (hls : list_labels env repo fuel = .ok ex)
    (hhash : checkHashable ex = .ok ())
    (hiter : pyIter targets = .ok ts) :
    sync_labels env repo targets fuel = syncLoop repo ex ts := by
  simp [sync_labels, hls, hhash, hiter]

/-- C2 (theorem): under a well-formed configuration and label set — string
names, colors and descriptions on both sides, the domain on which the name
index build cannot raise and the structural name lookup and description
comparison of the model coincide with Python equality, and distinct desired
names — the reconciler returns normally and, for every desired label, looks
its name up exactly (the name index is keyed by string equality, hence
case-sensitively): when the name is absent it issues exactly one create call
carrying the desired color and description and no update call; when present
with a case-insensitively differing color or a differing description it
issues exactly one update call carrying the desired values and no create
call; when present and identical it issues neither; and it never issues any
delete call. -/
theorem sync_labels_reconciles (env : Env) (repo targets : J) (fuel : Nat)
    (ex : List PyLabel) (ts tns : List J)
    (hls : list_labels env repo fuel = .ok ex)
    (hiter : pyIter targets = .ok ts)
    (hnames : getNames ts = .ok tns)
    (hnodup : tns.Nodup)
    (hex : ∀ l ∈ ex, l.name.isStr = true ∧ l.color.isStr = true ∧
      l.description.isStr = true)
    (htg : ∀ t ∈ ts, ∃ n c d, pyGetItem t "name" = .ok n ∧ n.isStr = true ∧
      pyGetItem t "color" = .ok c ∧ c.isStr = true ∧
      pyGetItem t "description" = .ok d ∧ d.isStr = true) :
    ∃ evs, sync_labels env repo targets fuel = (evs, .ok ()) ∧
      (∀ e ∈ evs, isDeleteCall e = false) ∧
      (∀ t ∈ ts, ∀ n c d, pyGetItem t "name" = .ok n → pyGetItem t "color" = .ok c →
        pyGetItem t "description" = .ok d →
        ((dictFind ex n = none →
          countCreate evs n = 1 ∧ Event.createCall repo n c d ∈ evs ∧ countUpdate evs n = 0) ∧
        (∀ l lc tc, dictFind ex n = some l → pyLower l.color = .ok lc → pyLower c = .ok tc →
          ((lc ≠ tc ∨ l.description ≠ d) →
            countUpdate evs n = 1 ∧ Event.updateCall repo n c d ∈ evs ∧ countCreate evs n = 0) ∧
          (lc = tc → l.description = d →
            countUpdate evs n = 0 ∧ countCreate evs n = 0)))) := by
  have hok : ∀ u ∈ ts, (syncOne repo ex u).2 = .ok () := by
    intro u hu
    obtain ⟨n, c, d, h1, h2, h3, h4, h5, h6⟩ := htg u hu
    exact syncOne_ok repo ex u ⟨n, c, d, h1, h2, h3, h4, h5⟩
      (fun l hl => (hex l hl).2.1)
  have hhash : checkHashable ex = .ok () :=
    checkHashable_ok ex (fun l hl => isStr_isHashable (hex l hl).1)
  refine ⟨traceConcat (fun u => (syncOne repo ex u).1) ts, ?_, ?_, ?_⟩
  · rw [sync_labels_eq env repo targets fuel ex ts hls hhash hiter]
    exact syncLoop_flat repo ex ts hok
  · intro e he
    obtain ⟨t, hts, hone⟩ := mem_traceConcat _ ts he
    obtain ⟨m, hm, hsh⟩ := syncOne_events repo ex t e hone
    rcases hsh with h1 | ⟨c2, d2, h1⟩ | h1 | ⟨c2, d2, h1⟩ <;> subst h1 <;> rfl
  · intro t ht n c d hn hc hd
    obtain ⟨hcnt_c, hcnt_u⟩ := sync_counts repo ex ts tns hnames hnodup t ht n hn
    obtain ⟨n2, c2, d2, hn2, hns, hc2, hcs, hd2, hds⟩ := htg t ht
    have hnn : n2 = n := Except.ok.inj (hn2.symm.trans hn)
    rw [hnn] at hns
    constructor
    · intro hmiss
      have hevalt := syncOne_create repo ex t n c d hn hc hd hmiss
      refine ⟨?_, ?_, ?_⟩
      · unfold countCreate
        rw [hcnt_c, hevalt]
        simp [isCreateFor, List.countP_cons]
      · exact mem_traceConcat_of _ ts t ht (by rw [hevalt]; simp)
      · unfold countUpdate
        rw [hcnt_u, hevalt]
        simp [isUpdateFor, List.countP_cons]
    · intro l lc tc hfind hlc htc
      constructor
      · intro hne
        obtain ⟨sn, hsn⟩ := isStr_exists hns
        have hq : pyQuote n = .ok sn := by rw [hsn]; rfl
        have hevalt := syncOne_update repo ex t n c d l lc tc sn hn hc hd hfind hlc htc hq hne
        refine ⟨?_, ?_, ?_⟩
        · unfold countUpdate
          rw [hcnt_u, hevalt]
          simp [isUpdateFor, List.countP_cons]
        · exact mem_traceConcat_of _ ts t ht (by rw [hevalt]; simp)
        · unfold countCreate
          rw [hcnt_c, hevalt]
          simp [isCreateFor, List.countP_cons]
      · intro hlceq hdesc
        have hevalt := syncOne_noop repo ex t n c d l lc hn hc hd hfind hlc
          (hlceq ▸ htc) hdesc
        constructor
        · unfold countUpdate
          rw [hcnt_u, hevalt]
          rfl
        · unfold countCreate
          rw [hcnt_c, hevalt]
          rfl

/-- C2 (witness): on the happy-path repository, the desired label `bug` is
absent, so the reconciler issues exactly one create call for it, no update
call, and no delete call. -/
theorem sync_labels_reconciles_witness :
    ∃ evs, sync_labels wEnv (.str "o/r") wCfg 5 = (evs, .ok ()) ∧
      (∀ e ∈ evs, isDeleteCall e = false) ∧
      (∀ t ∈ [J.obj [("name", .str "bug"), ("color", .str "d73a4a"), ("description", .str "Bug")]],
        ∀ n c d, pyGetItem t "name" = .ok n → pyGetItem t "color" = .ok c →
        pyGetItem t "description" = .ok d →
        ((dictFind [⟨.str "x", .str "c", .str ""⟩] n = none →
          countCreate evs n = 1 ∧ Event.createCall (.str "o/r") n c d ∈ evs ∧
            countUpdate evs n = 0) ∧
        (∀ l lc tc, dictFind [⟨.str "x", .str "c", .str ""⟩] n = some l →
          pyLower l.color = .ok lc → pyLower c = .ok tc →
          ((lc ≠ tc ∨ l.description ≠ d) →
            countUpdate evs n = 1 ∧ Event.updateCall (.str "o/r") n c d ∈ evs ∧
              countCreate evs n = 0) ∧
          (lc = tc → l.description = d →
            countUpdate evs n = 0 ∧ countCreate evs n = 0)))) :=
  sync_labels_reconciles wEnv (.str "o/r") wCfg 5
    [⟨.str "x", .str "c", .str ""⟩]
    [J.obj [("name", .str "bug"), ("color", .str "d73a4a"), ("description", .str "Bug")]]
    [.str "bug"]
    (by decide) (by decide) (by decide) (by decide) (by decide)
    (fun t ht => by
      have h : t = J.obj [("name", .str "bug"), ("color", .str "d73a4a"),
          ("description", .str "Bug")] := List.mem_singleton.mp ht
      subst h
      exact ⟨.str "bug", .str "d73a4a", .str "Bug", rfl, rfl, rfl, rfl, rfl, rfl⟩)

/-! Per-label evaluation of the pruning step and counting lemmas. -/

/-- The three behaviors of the pruning step once the discussions check has
returned: skip when either check is indeterminate, delete when both report no
usage, keep when both are definite and one reports usage. -/
theorem cleanupOne_cases (env : Env) (repo n : J) (dres : Option Bool)
    (hd : has_discussions env repo n = .ok dres) (hstr : n.isStr = true) :
    ((has_issues_or_prs env repo n = none ∨ dres = none) →
      cleanupOne env repo n = ([.logSkipping repo n], .ok ())) ∧
    (has_issues_or_prs env repo n = some false → dres = some false →
      cleanupOne env repo n = ([.logDeleting repo n, .deleteCall repo n], .ok ())) ∧
    (∀ bi bd, has_issues_or_prs env repo n = some bi → dres = some bd →
      (bi = true ∨ bd = true) →
      cleanupOne env repo n = ([.logKeeping repo n], .ok ())) := by
  obtain ⟨s, hs⟩ := isStr_exists hstr
  have hq : pyQuote n = .ok s := by rw [hs]; rfl
  refine ⟨fun hskip => ?_, fun hi hdres => ?_, fun bi bd hi hdres huse => ?_⟩
  · simp [cleanupOne, hd, hskip]
  · subst hdres
    simp [cleanupOne, hd, hi, hq]
  · subst hdres
    rcases huse with h | h <;> subst h <;> simp [cleanupOne, hd, hi]

/-- With a returned discussions check and a string name, the pruning step
returns normally. -/
theorem cleanupOne_ok (env : Env) (repo n : J) (dres : Option Bool)
    (hd : has_discussions env repo n = .ok dres) (hstr : n.isStr = true) :
    (cleanupOne env repo n).2 = .ok () := by
  obtain ⟨hskip, hdel, hkeep⟩ := cleanupOne_cases env repo n dres hd hstr
  match hi : has_issues_or_prs env repo n, hdr : dres with
  | none, _ => rw [hskip (Or.inl hi)]
  | some bi, none => rw [hskip (Or.inr rfl)]
  | some true, some bd => rw [hkeep true bd hi rfl (Or.inl rfl)]
  | some false, some true => rw [hkeep false true hi rfl (Or.inr rfl)]
  | some false, some false => rw [hdel hi rfl]

/-- When every step returns normally, the pruning loop returns normally with
the concatenation of the per-label traces. -/
theorem cleanupLoop_flat (env : Env) (repo : J) :
    ∀ ns : List J, (∀ n ∈ ns, (cleanupOne env repo n).2 = .ok ()) →
      cleanupLoop env repo ns = (traceConcat (fun n => (cleanupOne env repo n).1) ns, .ok ())
  | [], _ => rfl
  | n :: rest, h => by
    rw [cleanupLoop,
      cleanupLoop_flat env repo rest (fun u hu => h u (List.mem_cons_of_mem n hu)),
      seqM_of_ok _ (h n (List.mem_cons_self n rest))]
    rfl

/-- A pruning step for a different label issues no delete call for `n`. -/
theorem cleanupOne_count_ne (env : Env) (repo m n : J) (hne : m ≠ n) :
    (cleanupOne env repo m).1.countP (isDeleteFor n) = 0 := by
  rw [List.countP_eq_zero]
  intro e he
  rcases cleanupOne_events env repo m e he with h1 | h1 | h1 | h1 <;>
    subst h1 <;> simp [isDeleteFor, hne]

/-- Labels other than `n` contribute no delete call for `n`. -/
theorem cleanup_count_zero (env : Env) (repo n : J) :
    ∀ ns : List J, n ∉ ns →
      (traceConcat (fun m => (cleanupOne env repo m).1) ns).countP (isDeleteFor n) = 0
  | [], _ => rfl
  | m :: rest, h => by
    have hne : m ≠ n := fun hx => h (hx ▸ List.mem_cons_self m rest)
    have hrest : n ∉ rest := fun hx => h (List.mem_cons_of_mem m hx)
    simp [traceConcat, List.countP_append, cleanupOne_count_ne env repo m n hne,
      cleanup_count_zero env repo n rest hrest]

/-- With distinct extra labels, the whole-loop count of delete calls for a
listed label equals the count of that label's own step. -/
theorem cleanup_counts (env : Env) (repo : J) :
    ∀ ns : List J, ns.Nodup → ∀ n ∈ ns,
      (traceConcat (fun m => (cleanupOne env repo m).1) ns).countP (isDeleteFor n)
        = (cleanupOne env repo n).1.countP (isDeleteFor n)
  | [], _, n, hn => absurd hn (List.not_mem_nil n)
  | m :: rest, hnd, n, hn => by
    have hnd2 := List.nodup_cons.mp hnd
    rcases List.mem_cons.mp hn with hn | hn
    · subst hn
      simp [traceConcat, List.countP_append, cleanup_count_zero env repo n rest hnd2.1]
    · have hne : m ≠ n := fun hx => hnd2.1 (hx ▸ hn)
      simp [traceConcat, List.countP_append, cleanupOne_count_ne env repo m n hne,
        cleanup_counts env repo rest hnd2.2 n hn]

/-- The pruner reduces to its loop over the extra labels once the label fetch
is fixed. -/
theorem cleanup_labels_eq (env : Env) (repo : J) (tns : List J) (fuel : Nat)
    (ex : List PyLabel) (hls : list_labels env repo fuel = .ok ex) :
    cleanup_labels env repo tns fuel = cleanupLoop env repo (extraOf ex tns) := by
  simp [cleanup_labels, hls]

/-- C1 (theorem): with string-named, pairwise-distinct extra labels whose
discussion checks all return, the pruner returns normally and, for every
existing label not in the desired set: exactly one delete call is issued if
and only if both usage checks completed with a definite "no usage" answer;
when either check is indeterminate, zero delete calls are issued and a skip
is logged; when both checks are definite and usage was found, zero delete
calls are issued and the label is logged as kept. -/
theorem cleanup_labels_prunes (env : Env) (repo : J) (tns : List J) (fuel : Nat)
    (ex : List PyLabel)
    (hls : list_labels env repo fuel = .ok ex)
    (hnodup : (extraOf ex tns).Nodup)
    (hstr : ∀ n ∈ extraOf ex tns, n.isStr = true)
    (hdisc : ∀ n ∈ extraOf ex tns, ∃ r, has_discussions env repo n = .ok r) :
    ∃ evs, cleanup_labels env repo tns fuel = (evs, .ok ()) ∧
      ∀ n ∈ extraOf ex tns,
        (countDelete evs n = 1 ↔
          has_issues_or_prs env repo n = some false ∧
          has_discussions env repo n = .ok (some false)) ∧
        ((has_issues_or_prs env repo n = none ∨ has_discussions env repo n = .ok none) →
          countDelete evs n = 0 ∧ Event.logSkipping repo n ∈ evs) ∧
        (∀ bi bd, has_issues_or_prs env repo n = some bi →
          has_discussions env repo n = .ok (some bd) → (bi = true ∨ bd = true) →
          countDelete evs n = 0 ∧ Event.logKeeping repo n ∈ evs) := by
  have hok : ∀ n ∈ extraOf ex tns, (cleanupOne env repo n).2 = .ok () := by
    intro n hn
    obtain ⟨dres, hd⟩ := hdisc n hn
    exact cleanupOne_ok env repo n dres hd (hstr n hn)
  refine ⟨traceConcat (fun m => (cleanupOne env repo m).1) (extraOf ex tns), ?_, ?_⟩
  · rw [cleanup_labels_eq env repo tns fuel ex hls]
    exact cleanupLoop_flat env repo (extraOf ex tns) hok
  · intro n hn
    obtain ⟨dres, hd⟩ := hdisc n hn
    obtain ⟨hskip, hdel, hkeep⟩ := cleanupOne_cases env repo n dres hd (hstr n hn)
    have hcnt := cleanup_counts env repo (extraOf ex tns) hnodup n hn
    refine ⟨?_, ?_, ?_⟩
    · constructor
      · intro h1
        match hi : has_issues_or_prs env repo n, hdr : dres with
        | none, _ =>
          rw [countDelete, hcnt, hskip (Or.inl hi)] at h1
          exact absurd h1 (by simp [isDeleteFor])
        | some bi, none =>
          rw [countDelete, hcnt, hskip (Or.inr rfl)] at h1
          exact absurd h1 (by simp [isDeleteFor])
        | some true, some bd =>
          rw [countDelete, hcnt, hkeep true bd hi rfl (Or.inl rfl)] at h1
          exact absurd h1 (by simp [isDeleteFor])
        | some false, some true =>
          rw [countDelete, hcnt, hkeep false true hi rfl (Or.inr rfl)] at h1
          exact absurd h1 (by simp [isDeleteFor])
        | some false, some false =>
          exact ⟨rfl, hd⟩
      · intro h1
        have hi : has_issues_or_prs env repo n = some false := h1.1
        have hdres : dres = some false := by
          have := h1.2
          rw [hd] at this
          exact Except.ok.inj this
        rw [countDelete, hcnt, hdel hi hdres]
        simp [isDeleteFor]
    · intro h1
      have hskip2 : has_issues_or_prs env repo n = none ∨ dres = none := by
        rcases h1 with h1 | h1
        · exact Or.inl h1
        · rw [hd] at h1
          exact Or.inr (Except.ok.inj h1)
      constructor
      · rw [countDelete, hcnt, hskip hskip2]
        simp [isDeleteFor]
      · exact mem_traceConcat_of _ (extraOf ex tns) n hn (by rw [hskip hskip2]; simp)
    · intro bi bd hi hdr huse
      have hdres : dres = some bd := by
        rw [hd] at hdr
        exact Except.ok.inj hdr
      constructor
      · rw [countDelete, hcnt, hkeep bi bd hi hdres huse]
        simp [isDeleteFor]
      · exact mem_traceConcat_of _ (extraOf ex tns) n hn
          (by rw [hkeep bi bd hi hdres huse]; simp)

/-- C1 (witness): on the happy-path repository, the extra label `x` passes
both usage checks with zero usage, so the pruner issues exactly one delete
call for it. -/
theorem cleanup_labels_prunes_witness :
    ∃ evs, cleanup_labels wEnv (.str "o/r") [.str "bug"] 5 = (evs, .ok ()) ∧
      ∀ n ∈ extraOf [⟨.str "x", .str "c", .str ""⟩] [.str "bug"],
        (countDelete evs n = 1 ↔
          has_issues_or_prs wEnv (.str "o/r") n = some false ∧
          has_discussions wEnv (.str "o/r") n = .ok (some false)) ∧
        ((has_issues_or_prs wEnv (.str "o/r") n = none ∨
            has_discussions wEnv (.str "o/r") n = .ok none) →
          countDelete evs n = 0 ∧ Event.logSkipping (.str "o/r") n ∈ evs) ∧
        (∀ bi bd, has_issues_or_prs wEnv (.str "o/r") n = some bi →
          has_discussions wEnv (.str "o/r") n = .ok (some bd) → (bi = true ∨ bd = true) →
          countDelete evs n = 0 ∧ Event.logKeeping (.str "o/r") n ∈ evs) :=
  cleanup_labels_prunes wEnv (.str "o/r") [.str "bug"] 5
    [⟨.str "x", .str "c", .str ""⟩]
    (by decide) (by decide) (by decide)
    (fun n hn => by
      have h : n = .str "x" := List.mem_singleton.mp hn
      subst h
      exact ⟨some false, by decide⟩)

/-! Exit behavior of `main`. -/

/-- Sequencing after a normally-returning computation keeps the result of the
second. -/
theorem seqM_snd {x y : M Unit} (hx : x.2 = .ok ()) : (seqM x y).2 = y.2 := by
  rw [seqM_of_ok y hx]

/-- An extra label is the name of a fetched record. -/
theorem extraOf_names {ex : List PyLabel} {tns : List J} {n : J}
    (h : n ∈ extraOf ex tns) : ∃ l ∈ ex, l.name = n := by
  unfold extraOf at h
  exact List.mem_map.mp (List.mem_filter.mp h).1

/-- When reconciliation and pruning return normally for every repository, the
repository loop returns normally. -/
theorem repoLoop_ok (env : Env) (cfg : J) (tns : List J) (fuel : Nat) :
    ∀ rs : List J, (∀ r ∈ rs, (sync_labels env r cfg fuel).2 = .ok () ∧
      (cleanup_labels env r tns fuel).2 = .ok ()) →
      (repoLoop env cfg tns fuel rs).2 = .ok ()
  | [], _ => rfl
  | r :: rest, h => by
    obtain ⟨hs, hc⟩ := h r (List.mem_cons_self r rest)
    rw [repoLoop, seqM_snd rfl, seqM_snd hs, seqM_snd hc]
    exact repoLoop_ok env cfg tns fuel rest
      (fun u hu => h u (List.mem_cons_of_mem r hu))

/-- C4 (counterexample): with the credential present and the configuration
file present and parseable (the JSON document `[5]`), the run aborts with
exit status 1: the name projection `l["name"]` raises `TypeError` on the
entry `5`.  This refutes the claim that every run with a credential and a
parseable configuration completes and exits zero. -/
theorem exit_zero_counterexample :
    main (some "t") (some (.arr [.num 5]))
        (Env.mk (fun _ => none) (fun _ _ => none) (fun _ _ => none) (fun _ _ => none)) 3
      = .exited 1 [] ∧ (1 : Nat) ≠ 0 := by
  refine ⟨by decide, by decide⟩

/-- C4 (amended theorem): a missing credential exits with the distinct status
2 before any remote call (the environment is irrelevant); a missing or
unparseable configuration exits 1; a run that exits 0 had both a credential
and a decoded configuration; and whenever the configuration decodes to a
well-formed label list (objects with string names and colors and a present
description) and every remote response is either a failure or well-shaped
(the enumeration and label fetches return, fetched labels have string names
and colors, and the discussion check returns for every extra label), the run
completes and exits 0 — even when individual calls failed, since a failed
enumeration, label fetch, or usage check never raises. -/
theorem main_exit_behavior :
    (∀ cfg env fuel, main none cfg env fuel = .exited 2 []) ∧
    (∀ t env fuel, main (some t) none env fuel = .exited 1 []) ∧
    (∀ tok cfg env fuel evs, main tok cfg env fuel = .exited 0 evs →
      tok.isSome = true ∧ cfg.isSome = true) ∧
    (∀ (t : String) (cfg : J) (env : Env) (fuel : Nat) (ts tns rs : List J),
      pyIter cfg = .ok ts → getNames ts = .ok tns →
      (∀ u ∈ ts, ∃ n c d, pyGetItem u "name" = .ok n ∧ n.isStr = true ∧
        pyGetItem u "color" = .ok c ∧ c.isStr = true ∧
        pyGetItem u "description" = .ok d) →
      list_repos env fuel = .ok rs →
      (∀ r ∈ rs, ∃ ex, list_labels env r fuel = .ok ex ∧
        (∀ l ∈ ex, l.color.isStr = true ∧ l.name.isStr = true) ∧
        (∀ n ∈ extraOf ex tns, ∃ dres, has_discussions env r n = .ok dres)) →
      ∃ evs, main (some t) (some cfg) env fuel = .exited 0 evs) := by
  refine ⟨fun cfg env fuel => rfl, fun t env fuel => rfl, ?_, ?_⟩
  · intro tok cfg env fuel evs h
    unfold main at h
    split at h
    · exact absurd (RunResult.exited.inj h).1 (by simp)
    · split at h
      · exact absurd (RunResult.exited.inj h).1 (by simp)
      · split at h
        · exact ⟨rfl, rfl⟩
        · exact absurd (RunResult.exited.inj h).1 (by simp)
        · exact RunResult.noConfusion h
  · intro t cfg env fuel ts tns rs hiter hnames htg hrs hrepo
    have hnamesOf : namesOf cfg = .ok tns := by
      simp [namesOf, hiter, hnames]
    have hloop : (repoLoop env cfg tns fuel rs).2 = .ok () := by
      apply repoLoop_ok
      intro r hr
      obtain ⟨ex, hls, hgood, hdisc⟩ := hrepo r hr
      constructor
      · rw [sync_labels_eq env r cfg fuel ex ts hls
            (checkHashable_ok ex (fun l hl => isStr_isHashable (hgood l hl).2)) hiter,
          syncLoop_flat r ex ts
            (fun u hu => syncOne_ok r ex u (htg u hu) (fun l hl => (hgood l hl).1))]
      · rw [cleanup_labels_eq env r tns fuel ex hls]
        rw [cleanupLoop_flat env r (extraOf ex tns) ?hok]
        case hok =>
          intro n hn
          obtain ⟨dres, hd⟩ := hdisc n hn
          obtain ⟨l, hl, hln⟩ := extraOf_names hn
          exact cleanupOne_ok env r n dres hd (hln ▸ (hgood l hl).2)
    have hbody : (mainBody env cfg fuel).2 = .ok () := by
      have hb : mainBody env cfg fuel
          = seqM (repoLoop env cfg tns fuel rs) ([.done], .ok ()) := by
        simp [mainBody, hnamesOf, hrs]
      rw [hb, seqM_snd hloop]
    obtain ⟨evs0, r0, hb⟩ : ∃ e r, mainBody env cfg fuel = (e, r) := ⟨_, _, rfl⟩
    have hr0 : r0 = .ok () := by
      rw [hb] at hbody
      exact hbody
    subst hr0
    exact ⟨evs0, by simp [main, hb]⟩

/-- C4 (witness): a missing credential exits 2 regardless of the environment,
and the happy-path run (with its well-formed configuration and well-shaped
responses) exits 0. -/
theorem main_exit_behavior_witness :
    main none (some wCfg) wEnv 5 = .exited 2 [] ∧
    ∃ evs, main (some "t") (some wCfg) wEnv 5 = .exited 0 evs :=
  ⟨main_exit_behavior.1 (some wCfg) wEnv 5,
   main_exit_behavior.2.2.2 "t" wCfg wEnv 5
     [J.obj [("name", .str "bug"), ("color", .str "d73a4a"), ("description", .str "Bug")]]
     [.str "bug"] [.str "o/r"]
     (by decide) (by decide)
     (fun u hu => by
       have h : u = J.obj [("name", .str "bug"), ("color", .str "d73a4a"),
           ("description", .str "Bug")] := List.mem_singleton.mp hu
       subst h
       exact ⟨.str "bug", .str "d73a4a", .str "Bug", rfl, rfl, rfl, rfl, rfl⟩)
     (by decide)
     (fun r hr => by
       have h : r = .str "o/r" := List.mem_singleton.mp hr
       subst h
       refine ⟨[⟨.str "x", .str "c", .str ""⟩], by decide, by decide, ?_⟩
       intro n hn
       have h2 : n = .str "x" := List.mem_singleton.mp hn
       subst h2
       exact ⟨some false, by decide⟩)⟩

end SyncLabels
